import Mathlib

/-!
Verification of the vector-sorting engine of the repository
(`src/artifacts/algorithms/enhanced/EnhancedVectorSorting.cpp`, the canonical
"enhanced" variant, and `src/artifacts/algorithms/original/VectorSorting.cpp`,
the "original" variant).

Embedding conventions:
* A C++ `std::vector<Bid>` is a `List Bid`; `size_t` indices are `Nat`.
* An indexed read `bids[i]` that is always in bounds in the modelled code path
  is embedded with `nth` (a total read with a default); a read whose bounds are
  part of what is being verified is embedded with `l[i]?`, and `none` marks an
  out-of-bounds access (undefined behaviour in C++).  A `size_t` decrement that
  would wrap below zero is likewise marked as a fault, because the wrapped
  index `2^64 - 1` is out of bounds for every real vector.
* `std::string` comparison (`operator<`, lexicographic) is embedded as the
  lexicographic order on the underlying character list (`strLt` / `strLe`),
  which agrees with Mathlib's linear order on `String`.
* Every loop is embedded as a structurally recursive function on an explicit
  counter.  For a loop with a bound (`while (lowIndex <= end) ...`,
  `for (j = i + 1; j < size; ...)`) the counter is exactly the number of
  remaining permitted iterations, so the embedding is extensionally exact; for
  an unbounded loop (`while (true)` in `partition`, the recursion of
  `quickSort`) the counter is fuel, every wrapper passes enough of it, and the
  lemmas below show it is never exhausted on the modelled paths.
* The partition step additionally returns the list of every index at which the
  vector was read or swapped, so that in-range access is a provable statement.
* `double` is embedded as `ℚ` (no numeric claim below depends on rounding),
  and the benchmark's measured wall-clock duration in microseconds is an
  explicit parameter, since real time is not derivable from the code.
-/

/-- C++ `std::string` `operator<`: lexicographic comparison, embedded through
the character list so that it is kernel-evaluable. -/
def strLt (a b : String) : Prop := a.toList < b.toList

/-- C++ `std::string` `operator<=`. -/
def strLe (a b : String) : Prop := a.toList ≤ b.toList

instance (a b : String) : Decidable (strLt a b) :=
  inferInstanceAs (Decidable (a.toList < b.toList))

instance (a b : String) : Decidable (strLe a b) :=
  inferInstanceAs (Decidable (a.toList ≤ b.toList))

/-- `struct Bid` (EnhancedVectorSorting.cpp lines 30-37): id, title (the sort
key), fund, and amount.  The `double amount` is embedded as `ℚ`. -/
structure Bid where
  bidId : String
  title : String
  fund : String
  amount : ℚ
deriving DecidableEq, Repr

/-- The default-constructed `Bid` (empty strings, amount `0.0`). -/
def dummyBid : Bid := ⟨"", "", "", 0⟩

/-- Total indexed read used where the modelled code path is always in bounds. -/
def nth (l : List Bid) (i : Nat) : Bid := l.getD i dummyBid

/-- C++ `std::swap(bids[i], bids[j])`. -/
def swapIdx (l : List Bid) (i j : Nat) : List Bid := (l.set i (nth l j)).set j (nth l i)

/-- The slice `bids[a..b]` (inclusive bounds), as a list. -/
def sliceOf (l : List Bid) (a b : Nat) : List Bid := (l.drop a).take (b + 1 - a)

/-- Ascending order by title: for all `i < j`, `output[i].title <= output[j].title`. -/
def sortedByTitle (l : List Bid) : Prop :=
  List.Pairwise (fun a b => strLe a.title b.title) l

instance (l : List Bid) : Decidable (sortedByTitle l) :=
  inferInstanceAs (Decidable (List.Pairwise _ l))

/-- Ascending order by title inside the inclusive index window `[a, b]`. -/
def sortedOn (l : List Bid) (a b : Nat) : Prop :=
  ∀ i j, a ≤ i → i < j → j ≤ b → j < l.length → strLe (nth l i).title (nth l j).title

/-- The max-heap condition at node `j` for the heap occupying positions
`[0, n)`: each child of `j` that lies below `n` is at most `j` by title. -/
def childCond (n : Nat) (l : List Bid) (j : Nat) : Prop :=
  (2 * j + 1 < n → strLe (nth l (2 * j + 1)).title (nth l j).title)
  ∧ (2 * j + 2 < n → strLe (nth l (2 * j + 2)).title (nth l j).title)

/-- Membership in the implicit binary subtree rooted at `i` (the positions the
sift-down starting at `i` may touch). -/
inductive InTree (i : Nat) : Nat → Prop
  | refl : InTree i i
  | left {j : Nat} : InTree i j → InTree i (2 * j + 1)
  | right {j : Nat} : InTree i j → InTree i (2 * j + 2)

/-- `struct BenchmarkResult` (lines 42-50). -/
structure BenchmarkResult where
  algorithmName : String
  dataSize : Nat
  executionTimeMs : ℚ
deriving DecidableEq, Repr

/-- The closed set of four algorithm identities of the engine. -/
inductive SortAlg
  | selection
  | quick
  | merge
  | heap
deriving DecidableEq, Repr

namespace BidSorter

/-- The low-cursor scan of `BidSorter::partition` (lines 83-85):
`while (lowIndex <= end && bids[lowIndex].title < pivot) lowIndex++;`.
The counter `k` is the number of indices still allowed by the bound check,
`end + 1 - lowIndex`, so `k = 0` is exactly a failed `lowIndex <= end` guard.
Returns the stopped cursor and the indices read; `none` is an out-of-bounds
read. -/
def scanLowF (p : String) (l : List Bid) : Nat → Nat → Option (Nat × List Nat)
  | 0, low => some (low, [])
  | k + 1, low =>
    match l[low]? with
    | none => none
    | some x =>
      if strLt x.title p then (scanLowF p l k (low + 1)).map (fun r => (r.1, low :: r.2))
      else some (low, [low])

/-- The low-cursor scan with its bound expressed as in the source. -/
def scanLow (p : String) (e : Nat) (l : List Bid) (low : Nat) : Option (Nat × List Nat) :=
  scanLowF p l (e + 1 - low) low

/-- The high-cursor scan of `BidSorter::partition` (lines 88-90):
`while (highIndex >= begin && pivot < bids[highIndex].title) highIndex--;`.
`highIndex >= begin` is always true for `size_t` when `begin = 0`, exactly as
`Nat` comparison here; decrementing the cursor at `0` would wrap to `2^64 - 1`
and the next read would be out of bounds, so that step is marked as a fault. -/
def scanHigh (p : String) (b : Nat) (l : List Bid) : Nat → Option (Nat × List Nat)
  | 0 =>
    if b ≤ 0 then
      match l[0]? with
      | none => none
      | some x => if strLt p x.title then none else some (0, [0])
    else some (0, [])
  | high + 1 =>
    if b ≤ high + 1 then
      match l[high + 1]? with
      | none => none
      | some x =>
        if strLt p x.title then (scanHigh p b l high).map (fun r => (r.1, (high + 1) :: r.2))
        else some (high + 1, [high + 1])
    else some (high + 1, [])

/-- The `while (true)` loop of `BidSorter::partition` (lines 81-101), with
fuel.  Returns the split point, the updated vector, and all accessed indices. -/
def partitionLoop (p : String) (b e : Nat) :
    Nat → List Bid → Nat → Nat → Option (Nat × List Bid × List Nat)
  | 0, _, _, _ => none
  | fuel + 1, l, low, high =>
    match scanLow p e l low with
    | none => none
    | some (low₂, t₁) =>
      match scanHigh p b l high with
      | none => none
      | some (high₂, t₂) =>
        if high₂ ≤ low₂ then some (high₂, l, t₁ ++ t₂)
        else
          match partitionLoop p b e fuel (swapIdx l low₂ high₂) (low₂ + 1) (high₂ - 1) with
          | none => none
          | some (h, l', t) => some (h, l', t₁ ++ t₂ ++ low₂ :: high₂ :: t)

/-- `BidSorter::partition` (lines 71-102).  Guard: `if (begin >= end) return
begin;`; pivot is the title at the arithmetic midpoint.  The result is the
split point, the updated vector, and every index read or swapped.  The fuel
`e + 2` passed to the loop exceeds the largest possible iteration count. -/
def partition (l : List Bid) (b e : Nat) : Option (Nat × List Bid × List Nat) :=
  if b ≥ e then some (b, l, [])
  else
    match l[b + (e - b) / 2]? with
    | none => none
    | some pb =>
      (partitionLoop pb.title b e (e + 2) l b e).map
        (fun r => (r.1, r.2.1, (b + (e - b) / 2) :: r.2.2))

/-- `BidSorter::quickSort` (lines 187-200), with fuel for the recursion.
Guard: `if (bids.empty() || end <= begin) return;` then recursion into
`[begin, pivotIndex]` when `pivotIndex > begin` and `[pivotIndex+1, end]` when
`pivotIndex < end`. -/
def quickSort : Nat → List Bid → Nat → Nat → Option (List Bid)
  | 0, _, _, _ => none
  | fuel + 1, l, b, e =>
    if l = [] ∨ e ≤ b then some l
    else
      match partition l b e with
      | none => none
      | some (h, l', _) =>
        match (if b < h then quickSort fuel l' b h else some l') with
        | none => none
        | some l'' => if h < e then quickSort fuel l'' (h + 1) e else some l''

/-- The inner scan of `BidSorter::selectionSort` (lines 165-169): find the
index of the minimum title in `[j, n)`, starting from candidate `m`.  The
counter `k` is the number of remaining iterations `n - j`, so `k = 0` is
exactly a failed `j < size` guard. -/
def findMinF (l : List Bid) : Nat → Nat → Nat → Nat
  | 0, _, m => m
  | k + 1, j, m => findMinF l k (j + 1) (if strLt (nth l j).title (nth l m).title then j else m)

/-- The inner scan with its bound expressed as in the source. -/
def findMinFrom (l : List Bid) (n : Nat) (j : Nat) (m : Nat) : Nat :=
  findMinF l (n - j) j m

/-- The outer loop of `BidSorter::selectionSort` (lines 161-175): for each
position `i < size - 1`, swap the minimum of the unsorted suffix into place,
skipping self-swaps (`if (minIndex != i)`).  The counter `k` is `(n - 1) - i`. -/
def selLoopF (n : Nat) : Nat → Nat → List Bid → List Bid
  | 0, _, l => l
  | k + 1, i, l =>
    selLoopF n k (i + 1)
      (if findMinFrom l n (i + 1) i ≠ i then swapIdx l i (findMinFrom l n (i + 1) i) else l)

/-- The outer loop with its bound expressed as in the source. -/
def selLoop (n : Nat) (i : Nat) (l : List Bid) : List Bid :=
  selLoopF n (n - 1 - i) i l

/-- `BidSorter::selectionSort` (lines 156-176).  Guard: `if (bids.empty()) return;`. -/
def selectionSort (l : List Bid) : List Bid :=
  if l = [] then l else selLoop l.length 0 l

/-- The merging of the two temporary runs in `BidSorter::merge` (lines
118-145): repeatedly take the smaller head, the left run first on ties
(`leftArray[i].title <= rightArray[j].title`), then drain the leftover run.
The counter is fuel; one element is consumed per step, so the wrapper's
`xs.length + ys.length` can never run out. -/
def mergeRunsF : Nat → List Bid → List Bid → List Bid
  | _, [], r => r
  | _, x :: xs, [] => x :: xs
  | 0, x :: xs, y :: ys => x :: xs ++ y :: ys
  | k + 1, x :: xs, y :: ys =>
    if strLe x.title y.title then x :: mergeRunsF k xs (y :: ys)
    else y :: mergeRunsF k (x :: xs) ys

/-- The run-merge with sufficient fuel. -/
def mergeRuns (xs ys : List Bid) : List Bid :=
  mergeRunsF (xs.length + ys.length) xs ys

/-- The write-back of `BidSorter::merge`: the merged elements are written to
`bids[k]` for consecutive `k` starting at `left`. -/
def writeRun (l : List Bid) (k : Nat) : List Bid → List Bid
  | [] => l
  | x :: xs => writeRun (l.set k x) (k + 1) xs

/-- `BidSorter::merge` (lines 113-146): copy `bids[left..mid]` and
`bids[mid+1..right]` into temporary arrays, then write their merge back over
`bids[left..right]`. -/
def merge (l : List Bid) (left mid right : Nat) : List Bid :=
  writeRun l left
    (mergeRuns ((l.drop left).take (mid + 1 - left)) ((l.drop (mid + 1)).take (right - mid)))

/-- `BidSorter::mergeSort` (lines 211-223), with fuel for the recursion.
Guard: `if (bids.empty() || left >= right) return;`; splits at `mid = left +
(right - left) / 2`. -/
def mergeSortF : Nat → List Bid → Nat → Nat → List Bid
  | 0, l, _, _ => l
  | fuel + 1, l, left, right =>
    if l = [] ∨ left ≥ right then l
    else
      merge (mergeSortF fuel (mergeSortF fuel l left (left + (right - left) / 2))
          (left + (right - left) / 2 + 1) right)
        left (left + (right - left) / 2) right

/-- `BidSorter::mergeSort` on an inclusive range, with sufficient fuel
(`right - left + 1` strictly dominates the recursion depth). -/
def mergeSort (l : List Bid) (left right : Nat) : List Bid :=
  mergeSortF (right - left + 1) l left right

/-- First step of the `heapify` lambda of `BidSorter::heapSort` (lines
242-245): `if (left < n && bids[left].title > bids[largest].title) largest =
left;` — note `x > y` is `strLt y x`. -/
def largestOf1 (l : List Bid) (n i : Nat) : Nat :=
  if 2 * i + 1 < n ∧ strLt (nth l i).title (nth l (2 * i + 1)).title then 2 * i + 1 else i

/-- Second step of the `heapify` lambda (lines 247-250): compare the right
child against the current largest. -/
def largestOf (l : List Bid) (n i : Nat) : Nat :=
  if 2 * i + 2 < n ∧ strLt (nth l (largestOf1 l n i)).title (nth l (2 * i + 2)).title then
    2 * i + 2
  else largestOf1 l n i

/-- The recursive sift-down `heapifyRecursive` of `BidSorter::heapSort` (lines
237-259), with fuel: if the largest of node `i` and its children below `n` is
not `i`, swap and continue from there.  The node index strictly increases and
stays below `n`, so the wrapper's fuel `n + 1` can never run out. -/
def heapifyF : Nat → Nat → Nat → List Bid → List Bid
  | 0, _, _, l => l
  | fuel + 1, n, i, l =>
    if largestOf l n i ≠ i then heapifyF fuel n (largestOf l n i) (swapIdx l i (largestOf l n i))
    else l

/-- The sift-down with sufficient fuel. -/
def heapify (n : Nat) (i : Nat) (l : List Bid) : List Bid :=
  heapifyF (n + 1) n i l

/-- The heap-construction loop of `BidSorter::heapSort` (lines 265-267):
`for (int i = n / 2 - 1; i >= 0; i--) heapify(n, i);`.  The counter argument
`c` stands for `i + 1`, so the initial call uses `c = n / 2`. -/
def buildHeap (n : Nat) : Nat → List Bid → List Bid
  | 0, l => l
  | c + 1, l => buildHeap n c (heapify n c l)

/-- The extraction loop of `BidSorter::heapSort` (lines 270-276):
`for (size_t i = n - 1; i > 0; i--) { swap(bids[0], bids[i]); heapify(i, 0); }`. -/
def extractLoop : Nat → List Bid → List Bid
  | 0, l => l
  | j + 1, l => extractLoop j (heapify (j + 1) 0 (swapIdx l 0 (j + 1)))

/-- `BidSorter::heapSort` (lines 232-277).  Guard: `if (bids.empty()) return;`.
For `n = 1` the C++ build loop bound `n / 2 - 1` converts to `-1` and the loop
body never runs, which coincides with `buildHeap n (n / 2)` since `n / 2 = 0`. -/
def heapSort (l : List Bid) : List Bid :=
  if l = [] then l
  else extractLoop (l.length - 1) (buildHeap l.length (l.length / 2) l)

end BidSorter

/-- The four sort operations as run by the program: `selectionSort` and
`heapSort` on the whole vector, `quickSort` and `mergeSort` on the full range
`[0, size - 1]` (`benchmarkSort` lines 301-309, `main` cases 4-7).  The fuel
`l.length + 1` given to `quickSort` is sufficient (proved below); the `getD`
fallback is dead code on every input. -/
def runAlg : SortAlg → List Bid → List Bid
  | .selection, l => BidSorter.selectionSort l
  | .quick, l => (BidSorter.quickSort (l.length + 1) l 0 (l.length - 1)).getD l
  | .merge, l => BidSorter.mergeSort l 0 (l.length - 1)
  | .heap, l => BidSorter.heapSort l

/-- `benchmarkSort` (lines 292-315): the dataset parameter is received by
value, so the algorithm `f` runs on a private copy.  An empty input
short-circuits to a zero-size, zero-time result before any timing or sorting.
Otherwise the result records the sorted copy's size and the measured elapsed
wall-clock time `t` (the microsecond count divided by `1000.0` in the source),
which is an abstract input here since real time is not derivable from code. -/
def benchmarkSort (f : List Bid → List Bid) (t : ℚ) (l : List Bid) (nm : String) :
    BenchmarkResult :=
  if l = [] then ⟨nm, 0, 0⟩
  else ⟨nm, (f l).length, t⟩

/-- A `benchmarkSort` call as seen from its call site: the caller's sequence
is passed by value (copied), so the caller's own state is unchanged and only
the result escapes. -/
def benchmarkCall (a : SortAlg) (t : ℚ) (nm : String) (l : List Bid) :
    List Bid × BenchmarkResult :=
  (l, benchmarkSort (runAlg a) t l nm)

/-- `runBenchmarkComparison` (lines 482-504): on a non-empty dataset, run the
four algorithms in the fixed order Selection, Quick, Merge, Heap, each on an
independent copy of the same dataset, collecting results in invocation order.
The four measured durations are explicit parameters. -/
def runBenchmarkComparison (u1 u2 u3 u4 : ℚ) (l : List Bid) : List BenchmarkResult :=
  if l = [] then []
  else
    [benchmarkSort (runAlg .selection) u1 l "Selection Sort",
     benchmarkSort (runAlg .quick) u2 l "Quick Sort",
     benchmarkSort (runAlg .merge) u3 l "Merge Sort",
     benchmarkSort (runAlg .heap) u4 l "Heap Sort"]

/-- A `runBenchmarkComparison` call as seen from its call site: the dataset is
received by `const` reference and only copied, so the caller's state is
unchanged. -/
def sweepCall (u1 u2 u3 u4 : ℚ) (l : List Bid) : List Bid × List BenchmarkResult :=
  (l, runBenchmarkComparison u1 u2 u3 u4 l)

/-- The complexity column computed by `displayBenchmarks` (lines 338-352): an
if/else-if chain matching the result's `algorithmName` display string, leaving
the default-constructed empty string when no branch matches. -/
def complexityOf (nm : String) : String :=
  if nm = "Selection Sort" then "O(n²)"
  else if nm = "Quick Sort" then "O(n log n)"
  else if nm = "Merge Sort" then "O(n log n)"
  else if nm = "Heap Sort" then "O(n log n)"
  else ""

/-- The complexity cell rendered for one result row. -/
def displayedComplexity (r : BenchmarkResult) : String := complexityOf r.algorithmName

/-- The spec's closed complexity mapping keyed by algorithm identity
({Selection→O(n²), Quick→O(n log n), Merge→O(n log n), Heap→O(n log n)}),
stated from the spec's words for comparison with `complexityOf`. -/
def algComplexity : SortAlg → String
  | .selection => "O(n²)"
  | .quick => "O(n log n)"
  | .merge => "O(n log n)"
  | .heap => "O(n log n)"

/-- Any number of successive `benchmarkSort` calls as seen by the caller: each
call receives the caller's current sequence and hands back the caller's state,
which is the by-value call-site semantics of `benchmarkCall`. -/
def benchmarkSession : List (SortAlg × ℚ × String) → List Bid → List Bid
  | [], l => l
  | c :: cs, l => benchmarkSession cs (benchmarkCall c.1 c.2.1 c.2.2 l).1

/-- Any number of successive `runBenchmarkComparison` calls as seen by the
caller. -/
def sweepSession : List (ℚ × ℚ × ℚ × ℚ) → List Bid → List Bid
  | [], l => l
  | u :: us, l => sweepSession us (sweepCall u.1 u.2.1 u.2.2.1 u.2.2.2 l).1

namespace Original

/-- The low-cursor scan of the original `partition` (VectorSorting.cpp lines
133-135): `while (bids[lowIndex].title < pivot) lowIndex++;` — no bound
guard, so the read itself is the only stop on an overrun.  The counter is
`l.length - lowIndex`; at `0` the cursor is at or past the end and the read
faults. -/
def scanLowF (p : String) (l : List Bid) : Nat → Nat → Option (Nat × List Nat)
  | 0, _ => none
  | k + 1, low =>
    match l[low]? with
    | none => none
    | some x =>
      if strLt x.title p then (scanLowF p l k (low + 1)).map (fun r => (r.1, low :: r.2))
      else some (low, [low])

/-- The unguarded low-cursor scan. -/
def scanLow (p : String) (l : List Bid) (low : Nat) : Option (Nat × List Nat) :=
  scanLowF p l (l.length - low) low

/-- The high-cursor scan of the original `partition` (lines 138-140):
`while (pivot < bids[highIndex].title) highIndex--;` — no bound guard; a
`size_t` decrement at `0` wraps to `2^64 - 1` and the next read is out of
bounds, so it is marked as a fault. -/
def scanHigh (p : String) (l : List Bid) : Nat → Option (Nat × List Nat)
  | 0 =>
    match l[0]? with
    | none => none
    | some x => if strLt p x.title then none else some (0, [0])
  | high + 1 =>
    match l[high + 1]? with
    | none => none
    | some x =>
      if strLt p x.title then (scanHigh p l high).map (fun r => (r.1, (high + 1) :: r.2))
      else some (high + 1, [high + 1])

/-- The `while (true)` loop of the original `partition` (lines 131-153). -/
def partitionLoop (p : String) :
    Nat → List Bid → Nat → Nat → Option (Nat × List Bid × List Nat)
  | 0, _, _, _ => none
  | fuel + 1, l, low, high =>
    match scanLow p l low with
    | none => none
    | some (low₂, t₁) =>
      match scanHigh p l high with
      | none => none
      | some (high₂, t₂) =>
        if high₂ ≤ low₂ then some (high₂, l, t₁ ++ t₂)
        else
          match partitionLoop p fuel (swapIdx l low₂ high₂) (low₂ + 1) (high₂ - 1) with
          | none => none
          | some (h, l', t) => some (h, l', t₁ ++ t₂ ++ low₂ :: high₂ :: t)

/-- The original `partition` (lines 121-156): no degenerate-range guard; pivot
at the arithmetic midpoint; same scanning loop as the enhanced variant but
without the explicit cursor bound checks. -/
def partition (l : List Bid) (b e : Nat) : Option (Nat × List Bid × List Nat) :=
  match l[b + (e - b) / 2]? with
  | none => none
  | some pb =>
    (partitionLoop pb.title (e + 2) l b e).map
      (fun r => (r.1, r.2.1, (b + (e - b) / 2) :: r.2.2))

/-- The original `quickSort` (lines 167-182): guard `if (end <= begin)
return;`, then unconditional recursion into `[begin, mid]` and `[mid+1, end]`. -/
def quickSort : Nat → List Bid → Nat → Nat → Option (List Bid)
  | 0, _, _, _ => none
  | fuel + 1, l, b, e =>
    if e ≤ b then some l
    else
      match partition l b e with
      | none => none
      | some (m, l', _) =>
        match quickSort fuel l' b m with
        | none => none
        | some l'' => quickSort fuel l'' (m + 1) e

/-- The inner scan of the original `selectionSort` (lines 200-204), reading
`bids[j]` and `bids[min]` with no bound beyond `j < size`; the counter is
`size - j`. -/
def selScanF (l : List Bid) : Nat → Nat → Nat → Option Nat
  | 0, _, m => some m
  | k + 1, j, m =>
    match l[j]?, l[m]? with
    | some x, some y => selScanF l k (j + 1) (if strLt x.title y.title then j else m)
    | _, _ => none

/-- The inner scan with its bound expressed as in the source. -/
def selScan (l : List Bid) (n : Nat) (j : Nat) (m : Nat) : Option Nat :=
  selScanF l (n - j) j m

/-- The outer loop of the original `selectionSort` (lines 196-208):
`for (pos = 0; pos < size - 1; ++pos)` with an unconditional
`swap(bids[pos], bids[min])`; the swap is in bounds only when both indices are
below the vector's length.  The counter is `bound - pos`. -/
def selOuterF (n : Nat) : Nat → Nat → List Bid → Option (List Bid)
  | 0, _, l => some l
  | k + 1, pos, l =>
    match selScan l n (pos + 1) pos with
    | none => none
    | some m =>
      if pos < l.length ∧ m < l.length then selOuterF n k (pos + 1) (swapIdx l pos m)
      else none

/-- The original `selectionSort` (lines 192-209): no emptiness guard, so for
`size = 0` the `size_t` bound `size - 1` wraps to `2^64 - 1` and the first
iteration faults on an out-of-bounds swap. -/
def selectionSort (l : List Bid) : Option (List Bid) :=
  selOuterF l.length (if l.length = 0 then 2 ^ 64 - 1 else l.length - 1) 0 l

end Original

/-- Concrete record used in witnesses: id 1, title `"A"`. -/
def bidA1 : Bid := ⟨"1", "A", "F", 100⟩

/-- Concrete record used in witnesses: id 2, same title `"A"`. -/
def bidA2 : Bid := ⟨"2", "A", "F", 200⟩

/-- Concrete record used in witnesses. -/
def bidApple : Bid := ⟨"3", "Apple", "F", 1⟩

/-- Concrete record used in witnesses. -/
def bidMango : Bid := ⟨"4", "Mango", "F", 2⟩

/-- Concrete record used in witnesses. -/
def bidZebra : Bid := ⟨"5", "Zebra", "F", 3⟩

/-! ### Order kit for the embedded string comparison -/

theorem strLt_iff_lt (a b : String) : strLt a b ↔ a < b :=
  String.lt_iff_toList_lt.symm

theorem strLe_iff_le (a b : String) : strLe a b ↔ a ≤ b :=
  String.le_iff_toList_le.symm

theorem strLe_refl (a : String) : strLe a a := (strLe_iff_le a a).mpr le_rfl

theorem strLe_trans {a b c : String} (h₁ : strLe a b) (h₂ : strLe b c) : strLe a c :=
  (strLe_iff_le a c).mpr (le_trans ((strLe_iff_le a b).mp h₁) ((strLe_iff_le b c).mp h₂))

theorem strLe_of_strLt {a b : String} (h : strLt a b) : strLe a b :=
  (strLe_iff_le a b).mpr (le_of_lt ((strLt_iff_lt a b).mp h))

theorem strLe_of_not_strLt {a b : String} (h : ¬ strLt a b) : strLe b a :=
  (strLe_iff_le b a).mpr (le_of_not_lt (fun hlt => h ((strLt_iff_lt a b).mpr hlt)))

theorem not_strLt_of_strLe {a b : String} (h : strLe a b) : ¬ strLt b a :=
  fun hlt => absurd ((strLe_iff_le a b).mp h) (not_le.mpr ((strLt_iff_lt b a).mp hlt))

theorem strLe_antisymm {a b : String} (h₁ : strLe a b) (h₂ : strLe b a) : a = b :=
  le_antisymm ((strLe_iff_le a b).mp h₁) ((strLe_iff_le b a).mp h₂)

theorem strLt_of_strLt_of_strLe {a b c : String} (h₁ : strLt a b) (h₂ : strLe b c) :
    strLt a c :=
  (strLt_iff_lt a c).mpr (lt_of_lt_of_le ((strLt_iff_lt a b).mp h₁) ((strLe_iff_le b c).mp h₂))

theorem strLt_of_strLe_of_strLt {a b c : String} (h₁ : strLe a b) (h₂ : strLt b c) :
    strLt a c :=
  (strLt_iff_lt a c).mpr (lt_of_le_of_lt ((strLe_iff_le a b).mp h₁) ((strLt_iff_lt b c).mp h₂))

/-! ### List index kit: `nth`, `set`, `swapIdx`, `sliceOf` -/

theorem nth_eq_getElem {l : List Bid} {i : Nat} (h : i < l.length) : nth l i = l[i] := by
  simp [nth, List.getD_eq_getElem?_getD, List.getElem?_eq_getElem h]

theorem nth_set_self {l : List Bid} {i : Nat} {x : Bid} (h : i < l.length) :
    nth (l.set i x) i = x := by
  rw [nth_eq_getElem (by simpa using h)]
  exact List.getElem_set_self _

theorem nth_set_ne {l : List Bid} {i j : Nat} {x : Bid} (h : i ≠ j) :
    nth (l.set i x) j = nth l j := by
  simp [nth, List.getD_eq_getElem?_getD, List.getElem?_set_ne h]

theorem set_nth_self {l : List Bid} {i : Nat} : l.set i (nth l i) = l := by
  by_cases h : i < l.length
  · apply List.ext_getElem (by simp)
    intro n h₁ h₂
    by_cases hn : i = n
    · subst hn
      rw [List.getElem_set_self, nth_eq_getElem h]
    · rw [List.getElem_set_ne hn]
  · exact List.set_eq_of_length_le (by omega)

theorem length_swapIdx (l : List Bid) (i j : Nat) : (swapIdx l i j).length = l.length := by
  simp [swapIdx]

theorem swapIdx_self (l : List Bid) (i : Nat) : swapIdx l i i = l := by
  simp [swapIdx, List.set_set, set_nth_self]

theorem nth_swapIdx_left {l : List Bid} {i j : Nat} (hi : i < l.length) (hij : i ≠ j) :
    nth (swapIdx l i j) i = nth l j := by
  rw [swapIdx, nth_set_ne (Ne.symm hij), nth_set_self hi]

theorem nth_swapIdx_right {l : List Bid} {i j : Nat} (hj : j < l.length) :
    nth (swapIdx l i j) j = nth l i := by
  rw [swapIdx, nth_set_self (by simpa using hj)]

theorem nth_swapIdx_other {l : List Bid} {i j k : Nat} (h₁ : k ≠ i) (h₂ : k ≠ j) :
    nth (swapIdx l i j) k = nth l k := by
  rw [swapIdx, nth_set_ne (Ne.symm h₂), nth_set_ne (Ne.symm h₁)]

theorem count_set {l : List Bid} {n : Nat} (hn : n < l.length) (b a : Bid) :
    List.count a (l.set n b) + (if nth l n = a then 1 else 0)
      = List.count a l + (if b = a then 1 else 0) := by
  induction l generalizing n with
  | nil => simp at hn
  | cons x xs ih =>
    cases n with
    | zero =>
      simp only [List.set_cons_zero, List.count_cons, nth, List.getD]
      simp [List.count_cons]
      omega
    | succ m =>
      have hm : m < xs.length := by simpa using hn
      have := ih hm
      simp only [List.set_cons_succ, List.count_cons]
      have hnth : nth (x :: xs) (m + 1) = nth xs m := by simp [nth, List.getD]
      rw [hnth]
      omega

theorem swapIdx_perm {l : List Bid} {i j : Nat} (hi : i < l.length) (hj : j < l.length) :
    (swapIdx l i j).Perm l := by
  by_cases hij : i = j
  · subst hij; rw [swapIdx_self]
  · apply List.perm_iff_count.mpr
    intro a
    have h₁ := count_set (l := l) (n := i) hi (nth l j) a
    have h₂ := count_set (l := l.set i (nth l j)) (n := j) (by simpa using hj) (nth l i) a
    rw [nth_set_ne hij] at h₂
    by_cases e₁ : nth l i = a <;> by_cases e₂ : nth l j = a <;>
      simp only [swapIdx, e₁, e₂, if_true, if_false] at h₁ h₂ ⊢ <;> omega

theorem length_sliceOf {l : List Bid} {a b : Nat} (hb : b < l.length) (hab : a ≤ b) :
    (sliceOf l a b).length = b + 1 - a := by
  simp [sliceOf]
  omega

theorem sliceOf_append (l : List Bid) (a b : Nat) (hab : a ≤ b + 1) :
    l.take a ++ sliceOf l a b ++ l.drop (b + 1) = l := by
  have h₁ : (sliceOf l a b) ++ l.drop (b + 1) = l.drop a := by
    have : l.drop (b + 1) = (l.drop a).drop (b + 1 - a) := by
      rw [List.drop_drop]
      congr 1
      omega
    rw [this]
    simp only [sliceOf]
    rw [List.take_append_drop]
  rw [List.append_assoc, h₁, List.take_append_drop]

theorem nth_sliceOf {l : List Bid} {a b k : Nat} (hk : k < (sliceOf l a b).length) :
    (sliceOf l a b)[k] = nth l (a + k) := by
  have hlen : k < (l.drop a).length ∧ a + k < l.length := by
    simp [sliceOf] at hk
    simp
    omega
  simp only [sliceOf]
  rw [List.getElem_take _, List.getElem_drop]
  · exact (nth_eq_getElem hlen.2).symm

theorem mem_sliceOf {l : List Bid} {a b : Nat} {x : Bid} :
    x ∈ sliceOf l a b ↔ ∃ k, a ≤ k ∧ k ≤ b ∧ k < l.length ∧ nth l k = x := by
  constructor
  · intro hx
    obtain ⟨i, hi, hix⟩ := List.mem_iff_getElem.mp hx
    refine ⟨a + i, by omega, ?_, ?_, by rw [← nth_sliceOf hi, hix]⟩
    · have := hi
      simp [sliceOf] at this
      omega
    · have := hi
      simp [sliceOf] at this
      omega
  · rintro ⟨k, hak, hkb, hkl, hnth⟩
    apply List.mem_iff_getElem.mpr
    have hlen : k - a < (sliceOf l a b).length := by
      simp [sliceOf]
      omega
    refine ⟨k - a, hlen, ?_⟩
    rw [nth_sliceOf hlen, ← hnth]
    congr 1
    omega

theorem sortedByTitle_iff_nth {l : List Bid} :
    sortedByTitle l ↔ ∀ p q, p < q → q < l.length → strLe (nth l p).title (nth l q).title := by
  rw [sortedByTitle, List.pairwise_iff_getElem]
  constructor
  · intro h p q hpq hq
    rw [nth_eq_getElem (by omega), nth_eq_getElem hq]
    exact h p q (by omega) hq hpq
  · intro h i j hi hj hij
    have := h i j hij hj
    rwa [nth_eq_getElem (by omega), nth_eq_getElem hj] at this

theorem take_eq_of_untouched {l l' : List Bid} {a : Nat}
    (hlen : l'.length = l.length) (h : ∀ k, k < a → nth l' k = nth l k) :
    l'.take a = l.take a := by
  apply List.ext_getElem (by simp [hlen])
  intro n h₁ h₂
  rw [List.getElem_take _, List.getElem_take _]
  have hn : n < l.length := by simp at h₂; omega
  have := h n (by simp at h₁; omega)
  rwa [nth_eq_getElem (by omega), nth_eq_getElem hn] at this

theorem drop_eq_of_untouched {l l' : List Bid} {b : Nat}
    (hlen : l'.length = l.length) (h : ∀ k, b ≤ k → nth l' k = nth l k) :
    l'.drop b = l.drop b := by
  apply List.ext_getElem (by simp [hlen])
  intro n h₁ h₂
  rw [List.getElem_drop, List.getElem_drop]
  have hn : b + n < l.length := by simp at h₂; omega
  have := h (b + n) (by omega)
  rwa [nth_eq_getElem (by omega), nth_eq_getElem hn] at this

theorem sliceOf_perm_of_untouched {l l' : List Bid} {a b : Nat}
    (hperm : l'.Perm l) (hlen : l'.length = l.length) (hab : a ≤ b + 1)
    (h : ∀ k, k < a ∨ b < k → nth l' k = nth l k) :
    (sliceOf l' a b).Perm (sliceOf l a b) := by
  have ht : l'.take a = l.take a :=
    take_eq_of_untouched hlen (fun k hk => h k (Or.inl hk))
  have hd : l'.drop (b + 1) = l.drop (b + 1) :=
    drop_eq_of_untouched hlen (fun k hk => h k (Or.inr (by omega)))
  have h₁ := sliceOf_append l' a b hab
  have h₂ := sliceOf_append l a b hab
  have e1 : l.take a ++ sliceOf l' a b ++ l.drop (b + 1) = l' := by
    rw [← ht, ← hd]
    exact h₁
  have key : (l.take a ++ sliceOf l' a b ++ l.drop (b + 1)).Perm
      (l.take a ++ sliceOf l a b ++ l.drop (b + 1)) := by
    rw [e1, h₂]
    exact hperm
  rw [List.append_assoc, List.append_assoc] at key
  rw [List.perm_append_left_iff] at key
  exact (List.perm_append_right_iff _).mp key

/-! ### Selection sort: correctness -/

namespace BidSorter

theorem findMinF_spec (l : List Bid) :
    ∀ k j m, (findMinF l k j m = m ∨ (j ≤ findMinF l k j m ∧ findMinF l k j m < j + k))
      ∧ strLe (nth l (findMinF l k j m)).title (nth l m).title
      ∧ ∀ q, j ≤ q → q < j + k → strLe (nth l (findMinF l k j m)).title (nth l q).title := by
  intro k
  induction k with
  | zero =>
    intro j m
    refine ⟨Or.inl rfl, strLe_refl _, ?_⟩
    intro q h₁ h₂
    omega
  | succ k ih =>
    intro j m
    by_cases hcmp : strLt (nth l j).title (nth l m).title
    · have h := ih (j + 1) j
      have heq : findMinF l (k + 1) j m = findMinF l k (j + 1) j := by
        simp [findMinF, hcmp]
      refine ⟨?_, ?_, ?_⟩
      · rw [heq]
        rcases h.1 with h' | h' <;> omega
      · rw [heq]
        exact strLe_trans h.2.1 (strLe_of_strLt hcmp)
      · intro q hq₁ hq₂
        rw [heq]
        rcases Nat.eq_or_lt_of_le hq₁ with h' | h'
        · subst h'
          exact h.2.1
        · exact h.2.2 q h' (by omega)
    · have h := ih (j + 1) m
      have heq : findMinF l (k + 1) j m = findMinF l k (j + 1) m := by
        simp [findMinF, hcmp]
      refine ⟨?_, ?_, ?_⟩
      · rw [heq]
        rcases h.1 with h' | h' <;> omega
      · rw [heq]
        exact h.2.1
      · intro q hq₁ hq₂
        rw [heq]
        rcases Nat.eq_or_lt_of_le hq₁ with h' | h'
        · subst h'
          exact strLe_trans h.2.1 (strLe_of_not_strLt hcmp)
        · exact h.2.2 q h' (by omega)

theorem findMinF_of_sorted (l : List Bid) :
    ∀ k j m, (∀ q, j ≤ q → q < j + k → strLe (nth l m).title (nth l q).title) →
      findMinF l k j m = m := by
  intro k
  induction k with
  | zero => intro j m _; rfl
  | succ k ih =>
    intro j m hs
    have hcmp : ¬ strLt (nth l j).title (nth l m).title :=
      not_strLt_of_strLe (hs j le_rfl (by omega))
    have heq : findMinF l (k + 1) j m = findMinF l k (j + 1) m := by
      simp [findMinF, hcmp]
    rw [heq]
    exact ih (j + 1) m (fun q h₁ h₂ => hs q (by omega) (by omega))

theorem selLoopF_spec (n : Nat) :
    ∀ k i l, l.length = n → k = n - 1 - i →
      (∀ p q, p < i → p < q → q < n → strLe (nth l p).title (nth l q).title) →
      (selLoopF n k i l).length = n ∧ (selLoopF n k i l).Perm l ∧
        sortedByTitle (selLoopF n k i l) := by
  intro k
  induction k with
  | zero =>
    intro i l hlen hk hfront
    simp only [selLoopF]
    refine ⟨hlen, List.Perm.refl l, ?_⟩
    rw [sortedByTitle_iff_nth]
    intro p q hpq hq
    exact hfront p q (by omega) hpq (by omega)
  | succ k ih =>
    intro i l hlen hk hfront
    have hi : i < n - 1 := by omega
    have hmf : findMinFrom l n (i + 1) i = findMinF l (n - (i + 1)) (i + 1) i := rfl
    have hspec := findMinF_spec l (n - (i + 1)) (i + 1) i
    have hjk : i + 1 + (n - (i + 1)) = n := by omega
    rw [hjk, ← hmf] at hspec
    set m := findMinFrom l n (i + 1) i with hm
    have hmn : m < n := by rcases hspec.1 with h' | h' <;> omega
    have hmge : i ≤ m := by rcases hspec.1 with h' | h' <;> omega
    set l' := (if m ≠ i then swapIdx l i m else l) with hl'
    have hstep : selLoopF n (k + 1) i l = selLoopF n k (i + 1) l' := rfl
    have hlen' : l'.length = n := by
      by_cases hmi : m ≠ i <;> simp [hl', hmi, length_swapIdx, hlen]
    have hperm' : l'.Perm l := by
      by_cases hmi : m ≠ i
      · simp only [hl', if_pos hmi]
        exact swapIdx_perm (by omega) (by omega)
      · simp [hl', hmi]
    have hnth_lt : ∀ p, p < i → nth l' p = nth l p := by
      intro p hp
      by_cases hmi : m ≠ i
      · simp only [hl', if_pos hmi]
        exact nth_swapIdx_other (by omega) (by omega)
      · simp [hl', hmi]
    have hnth_i : nth l' i = nth l m := by
      by_cases hmi : m ≠ i
      · simp only [hl', if_pos hmi]
        exact nth_swapIdx_left (by omega) (by omega)
      · simp only [ne_eq, not_not] at hmi
        simp [hl', hmi]
    have hfront' : ∀ p q, p < i + 1 → p < q → q < n → strLe (nth l' p).title (nth l' q).title := by
      intro p q hp hpq hq
      by_cases hmi : m ≠ i
      · have hmgt : i < m := by omega
        rcases Nat.lt_or_ge p i with hpi | hpi
        · rw [hnth_lt p hpi]
          by_cases hqi : q = i
          · subst hqi
            rw [hnth_i]
            exact hfront p m hpi (by omega) hmn
          · by_cases hqm : q = m
            · subst hqm
              simp only [hl', if_pos hmi]
              rw [nth_swapIdx_right (by omega)]
              exact hfront p i hpi (by omega) (by omega)
            · simp only [hl', if_pos hmi]
              rw [nth_swapIdx_other hqi hqm]
              exact hfront p q hpi hpq hq
        · have hpi' : p = i := by omega
          subst hpi'
          rw [hnth_i]
          by_cases hqm : q = m
          · subst hqm
            simp only [hl', if_pos hmi]
            rw [nth_swapIdx_right (by omega)]
            exact hspec.2.1
          · simp only [hl', if_pos hmi]
            rw [nth_swapIdx_other (by omega) hqm]
            exact hspec.2.2 q (by omega) (by omega)
      · simp only [ne_eq, not_not] at hmi
        have hleq : l' = l := by simp [hl', hmi]
        rw [hleq]
        rcases Nat.lt_or_ge p i with hpi | hpi
        · exact hfront p q hpi hpq hq
        · have hpi' : p = i := by omega
          subst hpi'
          have := hspec.2.2 q (by omega) (by omega)
          rw [hmi] at this
          exact this
    have hrec := ih (i + 1) l' hlen' (by omega) hfront'
    rw [hstep]
    exact ⟨hrec.1, hrec.2.1.trans hperm', hrec.2.2⟩

theorem selectionSort_spec (l : List Bid) :
    (selectionSort l).length = l.length ∧ (selectionSort l).Perm l ∧
      sortedByTitle (selectionSort l) := by
  by_cases hl : l = []
  · subst hl
    exact ⟨rfl, List.Perm.refl _, List.Pairwise.nil⟩
  · have h := selLoopF_spec l.length (l.length - 1 - 0) 0 l rfl rfl
      (fun p q hp _ _ => by omega)
    simp only [selectionSort, if_neg hl]
    exact h

theorem findMinFrom_of_sorted {l : List Bid} {n i : Nat} (hlen : l.length = n)
    (hs : sortedByTitle l) : findMinFrom l n (i + 1) i = i := by
  apply findMinF_of_sorted
  intro q h₁ h₂
  rcases Nat.lt_or_ge q n with hq | hq
  · exact (sortedByTitle_iff_nth.mp hs) i q (by omega) (by omega)
  · omega

theorem selLoopF_of_sorted (n : Nat) :
    ∀ k i l, l.length = n → sortedByTitle l → selLoopF n k i l = l := by
  intro k
  induction k with
  | zero => intro i l _ _; rfl
  | succ k ih =>
    intro i l hlen hs
    have hmin : findMinFrom l n (i + 1) i = i := findMinFrom_of_sorted hlen hs
    have : selLoopF n (k + 1) i l
        = selLoopF n k (i + 1) (if findMinFrom l n (i + 1) i ≠ i then
            swapIdx l i (findMinFrom l n (i + 1) i) else l) := rfl
    rw [this, hmin]
    simp only [ne_eq, not_true_eq_false, if_false]
    exact ih (i + 1) l hlen hs

theorem selectionSort_of_sorted {l : List Bid} (hs : sortedByTitle l) :
    selectionSort l = l := by
  by_cases hl : l = []
  · simp [selectionSort, hl]
  · simp only [selectionSort, if_neg hl]
    exact selLoopF_of_sorted l.length _ 0 l rfl hs

end BidSorter

theorem strLt_irrefl (a : String) : ¬ strLt a a := by
  intro h
  exact absurd ((strLt_iff_lt a a).mp h) (lt_irrefl a)

namespace BidSorter

theorem scanLowF_spec (p : String) (l : List Bid) :
    ∀ k low s, low ≤ s → s < low + k → s < l.length → strLe p (nth l s).title →
      ∃ r t, scanLowF p l k low = some (r, t) ∧ low ≤ r ∧ r ≤ s ∧ r < l.length
        ∧ strLe p (nth l r).title
        ∧ (∀ q, low ≤ q → q < r → strLt (nth l q).title p)
        ∧ (∀ i, i ∈ t → low ≤ i ∧ i ≤ r) := by
  intro k
  induction k with
  | zero => intro low s h₁ h₂ _ _; omega
  | succ k ih =>
    intro low s h₁ h₂ hs hsp
    have hlow : low < l.length := by omega
    have hread : l[low]? = some l[low] := List.getElem?_eq_getElem hlow
    have hnth : nth l low = l[low] := nth_eq_getElem hlow
    by_cases hc : strLt (nth l low).title p
    · have hne : low ≠ s := by
        intro h
        subst h
        exact strLt_irrefl p (strLt_of_strLe_of_strLt hsp hc)
      obtain ⟨r, t, hr, h₃, h₄, h₅, h₆, h₇, h₈⟩ :=
        ih (low + 1) s (by omega) (by omega) hs hsp
      refine ⟨r, low :: t, ?_, by omega, h₄, h₅, h₆, ?_, ?_⟩
      · simp only [scanLowF, hread]
        rw [← hnth]
        simp only [if_pos hc, hr]
        rfl
      · intro q hq₁ hq₂
        rcases Nat.eq_or_lt_of_le hq₁ with h' | h'
        · rw [← h']
          exact hc
        · exact h₇ q h' hq₂
      · intro i hi
        rcases List.mem_cons.mp hi with h' | h'
        · subst h'
          omega
        · have := h₈ i h'
          omega
    · refine ⟨low, [low], ?_, le_rfl, h₁, hlow, ?_, ?_, ?_⟩
      · simp only [scanLowF, hread]
        rw [← hnth]
        simp only [if_neg hc]
      · exact strLe_of_not_strLt hc
      · intro q hq₁ hq₂
        omega
      · intro i hi
        simp only [List.mem_singleton] at hi
        omega

theorem scanLow_spec (p : String) (e : Nat) (l : List Bid) {low s : Nat}
    (h₁ : low ≤ s) (h₂ : s ≤ e) (hs : s < l.length) (hsp : strLe p (nth l s).title) :
    ∃ r t, scanLow p e l low = some (r, t) ∧ low ≤ r ∧ r ≤ s ∧ r < l.length
      ∧ strLe p (nth l r).title
      ∧ (∀ q, low ≤ q → q < r → strLt (nth l q).title p)
      ∧ (∀ i, i ∈ t → low ≤ i ∧ i ≤ r) :=
  scanLowF_spec p l (e + 1 - low) low s h₁ (by omega) hs hsp

theorem scanHigh_spec (p : String) (b : Nat) (l : List Bid) :
    ∀ high s, b ≤ s → s ≤ high → high < l.length → strLe (nth l s).title p →
      ∃ r t, scanHigh p b l high = some (r, t) ∧ s ≤ r ∧ r ≤ high
        ∧ strLe (nth l r).title p
        ∧ (∀ q, r < q → q ≤ high → strLt p (nth l q).title)
        ∧ (∀ i, i ∈ t → r ≤ i ∧ i ≤ high) := by
  intro high
  induction high with
  | zero =>
    intro s h₁ h₂ hlen hsp
    have hs0 : s = 0 := by omega
    subst hs0
    have hread : l[0]? = some l[0] := List.getElem?_eq_getElem hlen
    have hnth : nth l 0 = l[0] := nth_eq_getElem hlen
    have hc : ¬ strLt p (nth l 0).title := not_strLt_of_strLe hsp
    refine ⟨0, [0], ?_, le_rfl, le_rfl, hsp, ?_, ?_⟩
    · simp only [scanHigh, if_pos h₁, hread]
      rw [← hnth]
      simp only [if_neg hc]
    · intro q hq₁ hq₂
      omega
    · intro i hi
      simp only [List.mem_singleton] at hi
      omega
  | succ high ih =>
    intro s h₁ h₂ hlen hsp
    have hguard : b ≤ high + 1 := by omega
    have hread : l[high + 1]? = some l[high + 1] := List.getElem?_eq_getElem hlen
    have hnth : nth l (high + 1) = l[high + 1] := nth_eq_getElem hlen
    by_cases hc : strLt p (nth l (high + 1)).title
    · have hne : s ≠ high + 1 := by
        intro h
        subst h
        exact strLt_irrefl (nth l (high + 1)).title (strLt_of_strLe_of_strLt hsp hc)
      obtain ⟨r, t, hr, h₃, h₄, h₅, h₆, h₇⟩ :=
        ih s h₁ (by omega) (by omega) hsp
      refine ⟨r, (high + 1) :: t, ?_, h₃, by omega, h₅, ?_, ?_⟩
      · simp only [scanHigh, if_pos hguard, hread]
        rw [← hnth]
        simp only [if_pos hc, hr]
        rfl
      · intro q hq₁ hq₂
        rcases Nat.eq_or_lt_of_le hq₂ with h' | h'
        · rw [h']
          exact hc
        · exact h₆ q hq₁ (by omega)
      · intro i hi
        rcases List.mem_cons.mp hi with h' | h'
        · subst h'
          omega
        · have := h₇ i h'
          omega
    · refine ⟨high + 1, [high + 1], ?_, h₂, le_rfl, strLe_of_not_strLt hc, ?_, ?_⟩
      · simp only [scanHigh, if_pos hguard, hread]
        rw [← hnth]
        simp only [if_neg hc]
      · intro q hq₁ hq₂
        omega
      · intro i hi
        simp only [List.mem_singleton] at hi
        omega

end BidSorter

namespace BidSorter

theorem partitionLoop_spec (p : String) (b e : Nat) :
    ∀ fuel l low high s₁ s₂,
      e < l.length → b ≤ low → b ≤ high → high ≤ e →
      high + 1 - low < fuel →
      (∀ q, b ≤ q → q < low → strLe (nth l q).title p) →
      (∀ q, high < q → q ≤ e → strLe p (nth l q).title) →
      low ≤ s₁ → s₁ ≤ e → strLe p (nth l s₁).title →
      b ≤ s₂ → s₂ ≤ high → strLe (nth l s₂).title p →
      ∃ h l' t, partitionLoop p b e fuel l low high = some (h, l', t)
        ∧ b ≤ h ∧ h ≤ high ∧ (h ≤ s₁ ∨ h < high)
        ∧ l'.length = l.length
        ∧ (∀ k, k < b ∨ e < k → nth l' k = nth l k)
        ∧ l'.Perm l
        ∧ (∀ q, b ≤ q → q ≤ h → strLe (nth l' q).title p)
        ∧ (∀ q, h < q → q ≤ e → strLe p (nth l' q).title)
        ∧ (∀ i, i ∈ t → b ≤ i ∧ i ≤ e) := by
  intro fuel
  induction fuel with
  | zero => intro l low high s₁ s₂ _ _ _ _ hfuel _ _ _ _ _ _ _ _; omega
  | succ fuel ih =>
    intro l low high s₁ s₂ hlen hblow hbhigh hhighe hfuel hpre hsuf hs₁l hs₁e hs₁p hs₂b hs₂h hs₂p
    obtain ⟨low₂, t₁, hsl, hl₁, hl₂, hl₃, hl₄, hl₅, hl₆⟩ :=
      scanLow_spec p e l hs₁l hs₁e (by omega) hs₁p
    obtain ⟨high₂, t₂, hsh, hh₁, hh₂, hh₃, hh₄, hh₅⟩ :=
      scanHigh_spec p b l high s₂ hs₂b hs₂h (by omega) hs₂p
    by_cases hcross : high₂ ≤ low₂
    · refine ⟨high₂, l, t₁ ++ t₂, ?_, by omega, by omega, Or.inl (by omega), rfl,
        fun k _ => rfl, List.Perm.refl l, ?_, ?_, ?_⟩
      · simp only [partitionLoop, hsl, hsh, if_pos hcross]
      · intro q hq₁ hq₂
        rcases Nat.lt_or_ge q low with hq | hq
        · exact hpre q hq₁ hq
        · rcases Nat.lt_or_ge q low₂ with hq' | hq'
          · exact strLe_of_strLt (hl₅ q hq hq')
          · have : q = low₂ := by omega
            subst this
            have : high₂ = q := by omega
            rw [← this]
            exact hh₃
      · intro q hq₁ hq₂
        rcases le_or_lt q high with hq | hq
        · exact strLe_of_strLt (hh₄ q hq₁ hq)
        · exact hsuf q hq hq₂
      · intro i hi
        rcases List.mem_append.mp hi with h' | h'
        · have := hl₆ i h'
          omega
        · have := hh₅ i h'
          omega
    · have hlow₂high₂ : low₂ < high₂ := by omega
      have hlow₂len : low₂ < l.length := hl₃
      have hhigh₂len : high₂ < l.length := by omega
      have hswlen : (swapIdx l low₂ high₂).length = l.length := length_swapIdx l low₂ high₂
      have hswleft : nth (swapIdx l low₂ high₂) low₂ = nth l high₂ :=
        nth_swapIdx_left hlow₂len (by omega)
      have hswright : nth (swapIdx l low₂ high₂) high₂ = nth l low₂ :=
        nth_swapIdx_right hhigh₂len
      have hswother : ∀ k, k ≠ low₂ → k ≠ high₂ → nth (swapIdx l low₂ high₂) k = nth l k :=
        fun k h₁ h₂ => nth_swapIdx_other h₁ h₂
      obtain ⟨h, l', t, hpl, hc₁, hc₂, hc₃, hc₄, hc₅, hc₆, hc₇, hc₈, hc₉⟩ :=
        ih (swapIdx l low₂ high₂) (low₂ + 1) (high₂ - 1) high₂ low₂
          (by omega)
          (by omega)
          (by omega)
          (by omega)
          (by omega)
          (by
            intro q hq₁ hq₂
            rcases Nat.lt_or_ge q low with hq | hq
            · rw [hswother q (by omega) (by omega)]
              exact hpre q hq₁ hq
            · rcases Nat.lt_or_ge q low₂ with hq' | hq'
              · rw [hswother q (by omega) (by omega)]
                exact strLe_of_strLt (hl₅ q hq hq')
              · have : q = low₂ := by omega
                subst this
                rw [hswleft]
                exact hh₃)
          (by
            intro q hq₁ hq₂
            rcases Nat.eq_or_lt_of_le (show high₂ ≤ q by omega) with hq | hq
            · rw [← hq, hswright]
              exact hl₄
            · rcases le_or_lt q high with hq' | hq'
              · rw [hswother q (by omega) (by omega)]
                exact strLe_of_strLt (hh₄ q (by omega) hq')
              · rw [hswother q (by omega) (by omega)]
                exact hsuf q hq' hq₂)
          (by omega)
          (by omega)
          (by rw [hswright]; exact hl₄)
          (by omega)
          (by omega)
          (by rw [hswleft]; exact hh₃)
      refine ⟨h, l', t₁ ++ t₂ ++ low₂ :: high₂ :: t, ?_, hc₁, by omega, Or.inr (by omega),
        by rw [hc₄, hswlen], ?_, hc₆.trans (swapIdx_perm hlow₂len hhigh₂len), hc₇, hc₈, ?_⟩
      · simp only [partitionLoop, hsl, hsh, if_neg hcross, hpl]
      · intro k hk
        rw [hc₅ k hk, hswother k (by omega) (by omega)]
      · intro i hi
        rcases List.mem_append.mp hi with h' | h'
        · rcases List.mem_append.mp h' with h'' | h''
          · have := hl₆ i h''
            omega
          · have := hh₅ i h''
            omega
        · rcases List.mem_cons.mp h' with h'' | h''
          · omega
          · rcases List.mem_cons.mp h'' with h₃ | h₃
            · omega
            · have := hc₉ i h₃
              omega

end BidSorter

theorem sortedByTitle_of_sortedOn {l : List Bid} (h : sortedOn l 0 (l.length - 1)) :
    sortedByTitle l := by
  rw [sortedByTitle_iff_nth]
  intro p q hpq hq
  exact h p q (by omega) hpq (by omega) hq

theorem sortedOn_of_sortedByTitle {l : List Bid} (h : sortedByTitle l) (a b : Nat) :
    sortedOn l a b := by
  intro i j _ hij _ hj
  exact (sortedByTitle_iff_nth.mp h) i j hij hj

namespace BidSorter

theorem partition_spec {l : List Bid} {b e : Nat} (hbe : b ≤ e) (he : e < l.length) :
    ∃ h l' t, partition l b e = some (h, l', t)
      ∧ b ≤ h ∧ h ≤ e ∧ (b < e → h < e)
      ∧ l'.length = l.length
      ∧ (∀ k, k < b ∨ e < k → nth l' k = nth l k)
      ∧ l'.Perm l
      ∧ (∀ q, b ≤ q → q ≤ h → strLe (nth l' q).title (nth l (b + (e - b) / 2)).title)
      ∧ (∀ q, h < q → q ≤ e → strLe (nth l (b + (e - b) / 2)).title (nth l' q).title)
      ∧ (∀ i, i ∈ t → b ≤ i ∧ i ≤ e) := by
  rcases Nat.eq_or_lt_of_le hbe with heq | hlt
  · subst heq
    refine ⟨b, l, [], ?_, le_rfl, le_rfl, by omega, rfl, fun k _ => rfl, List.Perm.refl l,
      ?_, ?_, by simp⟩
    · simp [partition]
    · intro q hq₁ hq₂
      have : q = b := by omega
      subst this
      have : q + (q - q) / 2 = q := by omega
      rw [this]
      exact strLe_refl _
    · intro q hq₁ hq₂
      omega
  · have hmid₁ : b ≤ b + (e - b) / 2 := by omega
    have hmid₂ : b + (e - b) / 2 < e := by omega
    have hmidlen : b + (e - b) / 2 < l.length := by omega
    have hread : l[b + (e - b) / 2]? = some l[b + (e - b) / 2] :=
      List.getElem?_eq_getElem hmidlen
    have hnth : nth l (b + (e - b) / 2) = l[b + (e - b) / 2] := nth_eq_getElem hmidlen
    obtain ⟨h, l', t, hpl, hc₁, hc₂, hc₃, hc₄, hc₅, hc₆, hc₇, hc₈, hc₉⟩ :=
      partitionLoop_spec (l[b + (e - b) / 2]).title b e (e + 2) l b e
        (b + (e - b) / 2) (b + (e - b) / 2)
        he le_rfl hbe le_rfl (by omega)
        (fun q h₁ h₂ => by omega)
        (fun q h₁ h₂ => by omega)
        hmid₁ (by omega) (by rw [hnth]; exact strLe_refl _)
        hmid₁ (by omega) (by rw [hnth]; exact strLe_refl _)
    refine ⟨h, l', (b + (e - b) / 2) :: t, ?_, hc₁, by omega, ?_, hc₄, hc₅, hc₆, ?_, ?_, ?_⟩
    · simp only [partition, if_neg (by omega : ¬ b ≥ e), hread, hpl]
      rfl
    · intro _
      rcases hc₃ with h' | h' <;> omega
    · intro q hq₁ hq₂
      rw [hnth]
      exact hc₇ q hq₁ hq₂
    · intro q hq₁ hq₂
      rw [hnth]
      exact hc₈ q hq₁ hq₂
    · intro i hi
      rcases List.mem_cons.mp hi with h' | h'
      · omega
      · exact hc₉ i h'

theorem quickSort_spec :
    ∀ fuel l b e, e < l.length → e - b < fuel →
      ∃ l', quickSort fuel l b e = some l' ∧ l'.length = l.length ∧ l'.Perm l
        ∧ (∀ k, k < b ∨ e < k → nth l' k = nth l k) ∧ sortedOn l' b e := by
  intro fuel
  induction fuel with
  | zero => intro l b e _ hfuel; omega
  | succ fuel ih =>
    intro l b e he hfuel
    by_cases hguard : l = [] ∨ e ≤ b
    · refine ⟨l, ?_, rfl, List.Perm.refl l, fun k _ => rfl, ?_⟩
      · simp only [quickSort, if_pos hguard]
      · rcases hguard with h' | h'
        · subst h'
          intro i j _ _ _ hj
          simp at hj
        · intro i j hi hij hj _
          omega
    · have hbe : b < e := by
        by_contra hc
        exact hguard (Or.inr (by omega))
      obtain ⟨h₀, l₁, t, hpart, hp₁, hp₂, hp₃, hp₄, hp₅, hp₆, hp₇, hp₈, hp₉⟩ :=
        partition_spec (le_of_lt hbe) he
      have hh₀e : h₀ < e := hp₃ hbe
      have hl₁len : l₁.length = l.length := hp₄
      -- first recursive call (only when b < h₀)
      have step₁ : ∃ l₂, (if b < h₀ then quickSort fuel l₁ b h₀ else some l₁) = some l₂
          ∧ l₂.length = l₁.length ∧ l₂.Perm l₁
          ∧ (∀ k, k < b ∨ h₀ < k → nth l₂ k = nth l₁ k) ∧ sortedOn l₂ b h₀ := by
        by_cases hb : b < h₀
        · obtain ⟨l₂, hq, hq₁, hq₂, hq₃, hq₄⟩ :=
            ih l₁ b h₀ (by omega) (by omega)
          exact ⟨l₂, by rw [if_pos hb, hq], hq₁, hq₂, hq₃, hq₄⟩
        · refine ⟨l₁, by rw [if_neg hb], rfl, List.Perm.refl l₁, fun k _ => rfl, ?_⟩
          intro i j hi hij hj _
          omega
      obtain ⟨l₂, hql₂, hq₁, hq₂, hq₃, hq₄⟩ := step₁
      obtain ⟨l₃, hq', hq₁', hq₂', hq₃', hq₄'⟩ :=
        ih l₂ (h₀ + 1) e (by omega) (by omega)
      refine ⟨l₃, ?_, by omega, (hq₂'.trans hq₂).trans hp₆, ?_, ?_⟩
      · simp only [quickSort, if_neg hguard, hpart, hql₂, hq', if_pos hh₀e]
      · intro k hk
        rw [hq₃' k (by omega), hq₃ k (by omega), hp₅ k hk]
      · -- sortedness on [b, e]
        have hlow_vals : ∀ q, b ≤ q → q ≤ h₀ → q < l.length →
            strLe (nth l₃ q).title (nth l (b + (e - b) / 2)).title := by
          intro q hq₁'' hq₂'' hqlen
          have hn₃ : nth l₃ q = nth l₂ q := hq₃' q (by omega)
          rw [hn₃]
          have hmem : nth l₂ q ∈ sliceOf l₂ b h₀ :=
            mem_sliceOf.mpr ⟨q, hq₁'', hq₂'', by omega, rfl⟩
          have hsliceperm : (sliceOf l₂ b h₀).Perm (sliceOf l₁ b h₀) :=
            sliceOf_perm_of_untouched hq₂ hq₁ (by omega) (fun k hk => hq₃ k hk)
          have : nth l₂ q ∈ sliceOf l₁ b h₀ := hsliceperm.mem_iff.mp hmem
          obtain ⟨k', hk₁, hk₂, hk₃, hk₄⟩ := mem_sliceOf.mp this
          rw [← hk₄]
          exact hp₇ k' hk₁ hk₂
        have hhigh_vals : ∀ q, h₀ + 1 ≤ q → q ≤ e → q < l.length →
            strLe (nth l (b + (e - b) / 2)).title (nth l₃ q).title := by
          intro q hq₁'' hq₂'' hqlen
          have hmem : nth l₃ q ∈ sliceOf l₃ (h₀ + 1) e :=
            mem_sliceOf.mpr ⟨q, hq₁'', hq₂'', by omega, rfl⟩
          have hsliceperm : (sliceOf l₃ (h₀ + 1) e).Perm (sliceOf l₂ (h₀ + 1) e) :=
            sliceOf_perm_of_untouched hq₂' hq₁' (by omega) (fun k hk => hq₃' k hk)
          have hmem₂ : nth l₃ q ∈ sliceOf l₂ (h₀ + 1) e := hsliceperm.mem_iff.mp hmem
          obtain ⟨k', hk₁, hk₂, hk₃, hk₄⟩ := mem_sliceOf.mp hmem₂
          have : nth l₂ k' = nth l₁ k' := hq₃ k' (by omega)
          rw [← hk₄, this]
          exact hp₈ k' (by omega) hk₂
        intro i j hi hij hj hjlen
        have hjlen' : j < l.length := by omega
        rcases le_or_lt j h₀ with hcase | hcase
        · -- both in the low side
          have hn₃i : nth l₃ i = nth l₂ i := hq₃' i (by omega)
          have hn₃j : nth l₃ j = nth l₂ j := hq₃' j (by omega)
          rw [hn₃i, hn₃j]
          exact hq₄ i j hi hij hcase (by omega)
        · rcases le_or_lt i h₀ with hcase' | hcase'
          · -- cross: i in low side, j in high side
            exact strLe_trans (hlow_vals i hi hcase' (by omega))
              (hhigh_vals j (by omega) hj hjlen')
          · -- both in the high side
            exact hq₄' i j (by omega) hij hj (by omega)

end BidSorter

theorem strLe_of_not_strLe {a b : String} (h : ¬ strLe a b) : strLe b a :=
  (strLe_iff_le b a).mpr (le_of_not_le (fun h' => h ((strLe_iff_le a b).mpr h')))

theorem strLt_of_not_strLe {a b : String} (h : ¬ strLe a b) : strLt b a :=
  (strLt_iff_lt b a).mpr (lt_of_not_le (fun h' => h ((strLe_iff_le a b).mpr h')))

theorem pairwise_of_length_le_one {R : Bid → Bid → Prop} {l : List Bid}
    (h : l.length ≤ 1) : List.Pairwise R l := by
  match l with
  | [] => exact List.Pairwise.nil
  | [x] => exact List.pairwise_singleton R x
  | x :: y :: t => simp at h

theorem nth_def (l : List Bid) (i : Nat) : nth l i = (l[i]?).getD dummyBid := by
  simp [nth, List.getD_eq_getElem?_getD]

theorem nth_append_left {A B : List Bid} {k : Nat} (h : k < A.length) :
    nth (A ++ B) k = nth A k := by
  rw [nth_def, nth_def, List.getElem?_append, if_pos h]

theorem nth_append_right {A B : List Bid} {k : Nat} (h : A.length ≤ k) :
    nth (A ++ B) k = nth B (k - A.length) := by
  rw [nth_def, nth_def, List.getElem?_append, if_neg (by omega)]

theorem nth_take {l : List Bid} {n k : Nat} (h : k < n) :
    nth (l.take n) k = nth l k := by
  rw [nth_def, nth_def, List.getElem?_take_of_lt h]

theorem nth_drop (l : List Bid) (d m : Nat) : nth (l.drop d) m = nth l (d + m) := by
  rw [nth_def, nth_def, List.getElem?_drop]

theorem sliceOf_eq_of_untouched {l l' : List Bid} {a b : Nat}
    (hlen : l'.length = l.length)
    (h : ∀ k, a ≤ k → k ≤ b → nth l' k = nth l k) :
    sliceOf l' a b = sliceOf l a b := by
  apply List.ext_getElem
  · simp [sliceOf, hlen]
  · intro n h₁ h₂
    rw [nth_sliceOf h₁, nth_sliceOf h₂]
    have hb : a + n ≤ b := by
      simp [sliceOf] at h₁
      omega
    exact h (a + n) (by omega) hb

theorem sliceOf_concat {l : List Bid} {a m b : Nat} (h₁ : a ≤ m + 1) (h₂ : m ≤ b) :
    sliceOf l a m ++ sliceOf l (m + 1) b = sliceOf l a b := by
  simp only [sliceOf]
  have hd : l.drop (m + 1) = (l.drop a).drop (m + 1 - a) := by
    rw [List.drop_drop]
    congr 1
    omega
  rw [hd, ← List.take_add]
  congr 1
  omega

namespace BidSorter

theorem mergeRunsF_perm :
    ∀ k xs ys, xs.length + ys.length ≤ k → (mergeRunsF k xs ys).Perm (xs ++ ys) := by
  intro k
  induction k with
  | zero =>
    intro xs ys hk
    match xs, ys with
    | [], ys => simp [mergeRunsF]
    | x :: xs, [] => simp [mergeRunsF]
    | x :: xs, y :: ys => simp at hk
  | succ k ih =>
    intro xs ys hk
    match xs, ys with
    | [], ys => simp [mergeRunsF]
    | x :: xs, [] => simp [mergeRunsF]
    | x :: xs, y :: ys =>
      simp only [mergeRunsF]
      by_cases hc : strLe x.title y.title
      · rw [if_pos hc]
        have := ih xs (y :: ys) (by simp at hk ⊢; omega)
        exact List.Perm.cons x this
      · rw [if_neg hc]
        have := ih (x :: xs) ys (by simp at hk ⊢; omega)
        refine List.Perm.trans (List.Perm.cons y this) ?_
        exact List.perm_middle.symm

theorem mergeRunsF_sorted :
    ∀ k xs ys, xs.length + ys.length ≤ k → sortedByTitle xs → sortedByTitle ys →
      sortedByTitle (mergeRunsF k xs ys) := by
  intro k
  induction k with
  | zero =>
    intro xs ys hk hxs hys
    match xs, ys with
    | [], ys => simpa [mergeRunsF] using hys
    | x :: xs, [] => simpa [mergeRunsF] using hxs
    | x :: xs, y :: ys => simp at hk
  | succ k ih =>
    intro xs ys hk hxs hys
    match xs, ys with
    | [], ys => simpa [mergeRunsF] using hys
    | x :: xs, [] => simpa [mergeRunsF] using hxs
    | x :: xs, y :: ys =>
      simp only [mergeRunsF]
      rcases List.pairwise_cons.mp hxs with ⟨hx₁, hx₂⟩
      rcases List.pairwise_cons.mp hys with ⟨hy₁, hy₂⟩
      by_cases hc : strLe x.title y.title
      · rw [if_pos hc]
        apply List.pairwise_cons.mpr
        refine ⟨?_, ih xs (y :: ys) (by simp at hk ⊢; omega) hx₂ hys⟩
        intro z hz
        have hz' : z ∈ xs ++ y :: ys :=
          (mergeRunsF_perm k xs (y :: ys) (by simp at hk ⊢; omega)).mem_iff.mp hz
        rcases List.mem_append.mp hz' with h' | h'
        · exact hx₁ z h'
        · rcases List.mem_cons.mp h' with h'' | h''
          · subst h''
            exact hc
          · exact strLe_trans hc (hy₁ z h'')
      · rw [if_neg hc]
        have hyx : strLe y.title x.title := strLe_of_not_strLe hc
        apply List.pairwise_cons.mpr
        refine ⟨?_, ih (x :: xs) ys (by simp at hk ⊢; omega) hxs hy₂⟩
        intro z hz
        have hz' : z ∈ (x :: xs) ++ ys :=
          (mergeRunsF_perm k (x :: xs) ys (by simp at hk ⊢; omega)).mem_iff.mp hz
        rcases List.mem_append.mp hz' with h' | h'
        · rcases List.mem_cons.mp h' with h'' | h''
          · subst h''
            exact hyx
          · exact strLe_trans hyx (hx₁ z h'')
        · exact hy₁ z h'

theorem mergeRunsF_filter (t : String) :
    ∀ k xs ys, xs.length + ys.length ≤ k → sortedByTitle xs →
      (mergeRunsF k xs ys).filter (fun z => decide (z.title = t))
        = xs.filter (fun z => decide (z.title = t))
          ++ ys.filter (fun z => decide (z.title = t)) := by
  intro k
  induction k with
  | zero =>
    intro xs ys hk _
    match xs, ys with
    | [], ys => simp [mergeRunsF]
    | x :: xs, [] => simp [mergeRunsF]
    | x :: xs, y :: ys => simp at hk
  | succ k ih =>
    intro xs ys hk hxs
    match xs, ys with
    | [], ys => simp [mergeRunsF]
    | x :: xs, [] => simp [mergeRunsF]
    | x :: xs, y :: ys =>
      simp only [mergeRunsF]
      rcases List.pairwise_cons.mp hxs with ⟨hx₁, hx₂⟩
      by_cases hc : strLe x.title y.title
      · rw [if_pos hc]
        have hih := ih xs (y :: ys) (by simp at hk ⊢; omega) hx₂
        by_cases hxt : x.title = t
        · simp [List.filter_cons, hxt, hih]
        · simp [List.filter_cons, hxt, hih]
      · rw [if_neg hc]
        have hyx : strLt y.title x.title := strLt_of_not_strLe hc
        have hih := ih (x :: xs) ys (by simp at hk ⊢; omega) hxs
        by_cases hyt : y.title = t
        · -- every element of `x :: xs` is strictly above `t`, so its filter is empty
          have hnone : (x :: xs).filter (fun z => decide (z.title = t)) = [] := by
            rw [List.filter_eq_nil_iff]
            intro z hz
            simp only [decide_eq_true_eq]
            intro hzt
            have hxz : strLe x.title z.title := by
              rcases List.mem_cons.mp hz with h' | h'
              · subst h'
                exact strLe_refl _
              · exact hx₁ z h'
            have : strLt y.title z.title := strLt_of_strLt_of_strLe hyx hxz
            rw [hzt, ← hyt] at this
            exact strLt_irrefl y.title this
          simp [List.filter_cons, hyt, hih, hnone]
        · simp [List.filter_cons, hyt, hih]

theorem mergeRuns_perm (xs ys : List Bid) : (mergeRuns xs ys).Perm (xs ++ ys) :=
  mergeRunsF_perm (xs.length + ys.length) xs ys le_rfl

theorem mergeRuns_sorted {xs ys : List Bid} (hxs : sortedByTitle xs) (hys : sortedByTitle ys) :
    sortedByTitle (mergeRuns xs ys) :=
  mergeRunsF_sorted (xs.length + ys.length) xs ys le_rfl hxs hys

theorem mergeRuns_filter (t : String) {xs : List Bid} (ys : List Bid) (hxs : sortedByTitle xs) :
    (mergeRuns xs ys).filter (fun z => decide (z.title = t))
      = xs.filter (fun z => decide (z.title = t)) ++ ys.filter (fun z => decide (z.title = t)) :=
  mergeRunsF_filter t (xs.length + ys.length) xs ys le_rfl hxs

theorem mergeRuns_length (xs ys : List Bid) :
    (mergeRuns xs ys).length = xs.length + ys.length := by
  have := (mergeRuns_perm xs ys).length_eq
  simpa using this

end BidSorter

theorem drop_set_of_lt (l : List Bid) (k m : Nat) (x : Bid) (h : k < m) :
    (l.set k x).drop m = l.drop m := by
  apply List.ext_getElem?
  intro n
  rw [List.getElem?_drop, List.getElem?_drop, List.getElem?_set_ne (by omega)]

theorem take_set_succ (l : List Bid) (k : Nat) (x : Bid) (h : k < l.length) :
    (l.set k x).take (k + 1) = l.take k ++ [x] := by
  rw [List.set_eq_take_cons_drop x h, List.take_append_eq_append_take]
  have h₁ : (l.take k).length = k := by simp; omega
  rw [List.take_take]
  have h₂ : min (k + 1) k = k := by omega
  rw [h₂, h₁]
  have h₃ : k + 1 - k = 1 := by omega
  rw [h₃]
  simp

namespace BidSorter

theorem writeRun_eq :
    ∀ ms (l : List Bid) k, k + ms.length ≤ l.length →
      writeRun l k ms = l.take k ++ ms ++ l.drop (k + ms.length) := by
  intro ms
  induction ms with
  | nil =>
    intro l k h
    simp only [writeRun, List.length_nil, Nat.add_zero, List.append_nil]
    rw [List.take_append_drop]
  | cons x xs ih =>
    intro l k h
    have hk : k < l.length := by simp at h; omega
    have hstep : writeRun l k (x :: xs) = writeRun (l.set k x) (k + 1) xs := rfl
    rw [hstep, ih (l.set k x) (k + 1) (by simp at h ⊢; omega)]
    rw [take_set_succ l k x hk, drop_set_of_lt l k (k + 1 + xs.length) x (by omega)]
    have harith : k + 1 + xs.length = k + (x :: xs).length := by simp; omega
    rw [harith]
    simp

theorem merge_eq {l : List Bid} {left mid right : Nat} (h₁ : left ≤ mid) (h₂ : mid < right)
    (h₃ : right < l.length) :
    merge l left mid right
      = l.take left ++ mergeRuns (sliceOf l left mid) (sliceOf l (mid + 1) right)
          ++ l.drop (right + 1) := by
  have hL : (l.drop left).take (mid + 1 - left) = sliceOf l left mid := rfl
  have hR : (l.drop (mid + 1)).take (right - mid) = sliceOf l (mid + 1) right := by
    simp only [sliceOf]
    congr 1
    omega
  have hlenL : (sliceOf l left mid).length = mid + 1 - left :=
    length_sliceOf (by omega) h₁
  have hlenR : (sliceOf l (mid + 1) right).length = right - mid := by
    rw [length_sliceOf h₃ (by omega)]
    omega
  have hlenM : (mergeRuns (sliceOf l left mid) (sliceOf l (mid + 1) right)).length
      = right + 1 - left := by
    rw [mergeRuns_length, hlenL, hlenR]
    omega
  have := writeRun_eq (mergeRuns (sliceOf l left mid) (sliceOf l (mid + 1) right)) l left
    (by rw [hlenM]; omega)
  rw [merge, hL, hR, this, hlenM]
  have : left + (right + 1 - left) = right + 1 := by omega
  rw [this]

theorem mergeSortF_spec :
    ∀ fuel l left right, right < l.length → right - left < fuel →
      (mergeSortF fuel l left right).length = l.length
      ∧ (∀ k, k < left ∨ right < k → nth (mergeSortF fuel l left right) k = nth l k)
      ∧ (sliceOf (mergeSortF fuel l left right) left right).Perm (sliceOf l left right)
      ∧ sortedByTitle (sliceOf (mergeSortF fuel l left right) left right)
      ∧ ∀ t, (sliceOf (mergeSortF fuel l left right) left right).filter
            (fun z => decide (z.title = t))
          = (sliceOf l left right).filter (fun z => decide (z.title = t)) := by
  intro fuel
  induction fuel with
  | zero => intro l left right _ hfuel; omega
  | succ fuel ih =>
    intro l left right hr hfuel
    by_cases hguard : l = [] ∨ left ≥ right
    · have hout : mergeSortF (fuel + 1) l left right = l := by
        simp only [mergeSortF, if_pos hguard]
      rw [hout]
      have hlr : left ≥ right := by
        rcases hguard with h' | h'
        · subst h'
          simp at hr
        · exact h'
      refine ⟨rfl, fun k _ => rfl, List.Perm.refl _, ?_, fun t => rfl⟩
      apply pairwise_of_length_le_one
      simp [sliceOf]
      omega
    · have hlr : left < right := by
        rcases Nat.lt_or_ge left right with h' | h'
        · exact h'
        · exact absurd (Or.inr h') hguard
      set mid := left + (right - left) / 2 with hmid
      have hmid₁ : left ≤ mid := by omega
      have hmid₂ : mid < right := by omega
      obtain ⟨ha₁, ha₂, ha₃, ha₄, ha₅⟩ := ih l left mid (by omega) (by omega)
      set l₁ := mergeSortF fuel l left mid with hl₁
      obtain ⟨hb₁, hb₂, hb₃, hb₄, hb₅⟩ := ih l₁ (mid + 1) right (by omega) (by omega)
      set l₂ := mergeSortF fuel l₁ (mid + 1) right with hl₂
      have hout : mergeSortF (fuel + 1) l left right = merge l₂ left mid right := by
        simp only [mergeSortF, if_neg hguard]
      have hl₂len : l₂.length = l.length := by rw [hb₁, ha₁]
      have hmerge := merge_eq hmid₁ hmid₂ (by omega : right < l₂.length)
      -- names for the three segments
      set L := sliceOf l₂ left mid with hLdef
      set R := sliceOf l₂ (mid + 1) right with hRdef
      have hL : L = sliceOf l₁ left mid := by
        rw [hLdef]
        exact sliceOf_eq_of_untouched hb₁ (fun k hk₁ hk₂ => hb₂ k (Or.inl (by omega)))
      have hslice₁ : sliceOf l₁ (mid + 1) right = sliceOf l (mid + 1) right :=
        sliceOf_eq_of_untouched ha₁ (fun k hk₁ hk₂ => ha₂ k (Or.inr (by omega)))
      have hLsorted : sortedByTitle L := by rw [hL]; exact ha₄
      have hRsorted : sortedByTitle R := hb₄
      have hLperm : L.Perm (sliceOf l left mid) := by rw [hL]; exact ha₃
      have hRperm : R.Perm (sliceOf l (mid + 1) right) := by
        rw [hRdef, ← hslice₁]
        exact hb₃
      have hLfilter : ∀ t, L.filter (fun z => decide (z.title = t))
          = (sliceOf l left mid).filter (fun z => decide (z.title = t)) := by
        intro t
        rw [hL]
        exact ha₅ t
      have hRfilter : ∀ t, R.filter (fun z => decide (z.title = t))
          = (sliceOf l (mid + 1) right).filter (fun z => decide (z.title = t)) := by
        intro t
        rw [hRdef, ← hslice₁]
        exact hb₅ t
      have hlenL : L.length = mid + 1 - left := by
        rw [hLdef]
        exact length_sliceOf (by omega) hmid₁
      have hlenR : R.length = right - mid := by
        rw [hRdef, length_sliceOf (by omega) (by omega)]
        omega
      have hlenM : (mergeRuns L R).length = right + 1 - left := by
        rw [mergeRuns_length, hlenL, hlenR]
        omega
      have hlenA : (l₂.take left).length = left := by
        simp
        omega
      -- the slice of the output is exactly the merged runs
      have hsliceout : sliceOf (merge l₂ left mid right) left right = mergeRuns L R := by
        rw [hmerge]
        simp only [sliceOf]
        rw [List.append_assoc]
        have hdrop := List.drop_left (l₂.take left) (mergeRuns L R ++ l₂.drop (right + 1))
        rw [hlenA] at hdrop
        rw [hdrop, List.take_append_eq_append_take, hlenM]
        have h₁ : (right + 1 - left) - (right + 1 - left) = 0 := by omega
        rw [List.take_of_length_le (by rw [hlenM]), h₁, List.take_zero, List.append_nil]
      have houtlen : (merge l₂ left mid right).length = l.length := by
        rw [hmerge]
        simp [hlenM]
        omega
      rw [hout]
      refine ⟨houtlen, ?_, ?_, ?_, ?_⟩
      · intro k hk
        rw [hmerge]
        rcases hk with hk | hk
        · rw [List.append_assoc, nth_append_left (by rw [hlenA]; omega), nth_take hk]
          rw [hb₂ k (Or.inl (by omega)), ha₂ k (Or.inl hk)]
        · have hlen₂ : ((l₂.take left) ++ mergeRuns L R).length = right + 1 := by
            simp [hlenM]
            omega
          rw [nth_append_right (by rw [hlen₂]; omega), hlen₂, nth_drop]
          have : right + 1 + (k - (right + 1)) = k := by omega
          rw [this, hb₂ k (Or.inr (by omega)), ha₂ k (Or.inr (by omega))]
      · rw [hsliceout]
        refine ((mergeRuns_perm L R).trans (hLperm.append hRperm)).trans ?_
        rw [sliceOf_concat (by omega) (by omega)]
      · rw [hsliceout]
        exact mergeRuns_sorted hLsorted hRsorted
      · intro t
        rw [hsliceout, mergeRuns_filter t R hLsorted, hLfilter t, hRfilter t,
          ← sliceOf_concat (show left ≤ mid + 1 by omega) (show mid ≤ right by omega),
          List.filter_append]

end BidSorter

/-! ### Heap sort: correctness -/

theorem InTree.ge {i j : Nat} (h : InTree i j) : i ≤ j := by
  induction h with
  | refl => exact le_rfl
  | left _ ih => omega
  | right _ ih => omega

theorem InTree.trans {a b c : Nat} (h₁ : InTree a b) (h₂ : InTree b c) : InTree a c := by
  induction h₂ with
  | refl => exact h₁
  | left _ ih => exact InTree.left ih
  | right _ ih => exact InTree.right ih

theorem InTree.parent {i c : Nat} (h : InTree i c) (hne : c ≠ i) :
    ∃ j, InTree i j ∧ (c = 2 * j + 1 ∨ c = 2 * j + 2) := by
  cases h with
  | refl => exact absurd rfl hne
  | left h' => exact ⟨_, h', Or.inl rfl⟩
  | right h' => exact ⟨_, h', Or.inr rfl⟩

theorem inTree_zero (k : Nat) : InTree 0 k := by
  induction k using Nat.strong_induction_on with
  | _ k ih =>
    match k with
    | 0 => exact InTree.refl
    | k + 1 =>
      have hp : k / 2 < k + 1 := by omega
      have := ih (k / 2) hp
      rcases Nat.even_or_odd k with he | ho
      · obtain ⟨m, hm⟩ := he
        have hk : k + 1 = 2 * (k / 2) + 1 := by omega
        rw [hk]
        exact InTree.left this
      · obtain ⟨m, hm⟩ := ho
        have hk : k + 1 = 2 * (k / 2) + 2 := by omega
        rw [hk]
        exact InTree.right this

theorem perm_of_take_perm {out l : List Bid} (n : Nat) (hlen : out.length = l.length)
    (hperm : (out.take n).Perm (l.take n)) (huntouched : ∀ k, n ≤ k → nth out k = nth l k) :
    out.Perm l := by
  have hdrop : out.drop n = l.drop n := drop_eq_of_untouched hlen huntouched
  have h₁ : out.take n ++ out.drop n = out := List.take_append_drop n out
  have h₂ : l.take n ++ l.drop n = l := List.take_append_drop n l
  have h₃ : (out.take n ++ l.drop n).Perm (l.take n ++ l.drop n) := hperm.append_right _
  rw [h₂] at h₃
  rw [← hdrop] at h₃
  rw [h₁] at h₃
  exact h₃

theorem take_swapIdx {l : List Bid} {i j n : Nat} (hi : i < n) (hj : j < n)
    (hn : n ≤ l.length) : (swapIdx l i j).take n = swapIdx (l.take n) i j := by
  by_cases hij : i = j
  · subst hij
    rw [swapIdx_self, swapIdx_self]
  · have hil : i < l.length := by omega
    have hjl : j < l.length := by omega
    have hlen₁ : ((swapIdx l i j).take n).length = n := by
      simp [length_swapIdx]
      omega
    have hlen₂ : (swapIdx (l.take n) i j).length = n := by
      simp [length_swapIdx]
      omega
    apply List.ext_getElem (by rw [hlen₁, hlen₂])
    intro k h₁ h₂
    have h₁' : k < n := by rw [hlen₁] at h₁; exact h₁
    rw [← nth_eq_getElem h₁, ← nth_eq_getElem h₂, nth_take h₁']
    have htlen : (l.take n).length = n := by simp; omega
    by_cases hkj : k = j
    · subst hkj
      rw [nth_swapIdx_right hjl, nth_swapIdx_right (by rw [htlen]; omega), nth_take hi]
    · by_cases hki : k = i
      · subst hki
        rw [nth_swapIdx_left hil hij, nth_swapIdx_left (by rw [htlen]; omega) hij,
          nth_take hj]
      · rw [nth_swapIdx_other hki hkj, nth_swapIdx_other hki hkj, nth_take h₁']

theorem take_swapIdx_perm {l : List Bid} {i j n : Nat} (hi : i < n) (hj : j < n)
    (hn : n ≤ l.length) : ((swapIdx l i j).take n).Perm (l.take n) := by
  rw [take_swapIdx hi hj hn]
  have htlen : (l.take n).length = n := by simp; omega
  exact swapIdx_perm (by omega) (by omega)

namespace BidSorter

theorem largestOf1_facts (l : List Bid) (n i : Nat) :
    (largestOf1 l n i = i ∨ (largestOf1 l n i = 2 * i + 1 ∧ 2 * i + 1 < n))
    ∧ strLe (nth l i).title (nth l (largestOf1 l n i)).title
    ∧ (2 * i + 1 < n → strLe (nth l (2 * i + 1)).title (nth l (largestOf1 l n i)).title) := by
  by_cases hc : 2 * i + 1 < n ∧ strLt (nth l i).title (nth l (2 * i + 1)).title
  · rw [largestOf1, if_pos hc]
    exact ⟨Or.inr ⟨rfl, hc.1⟩, strLe_of_strLt hc.2, fun _ => strLe_refl _⟩
  · rw [largestOf1, if_neg hc]
    refine ⟨Or.inl rfl, strLe_refl _, ?_⟩
    intro hlt
    rcases Decidable.not_and_iff_or_not.mp hc with h' | h'
    · omega
    · exact strLe_of_not_strLt h'

theorem largestOf_facts (l : List Bid) (n i : Nat) :
    (largestOf l n i = i ∨ (largestOf l n i = 2 * i + 1 ∧ 2 * i + 1 < n)
      ∨ (largestOf l n i = 2 * i + 2 ∧ 2 * i + 2 < n))
    ∧ strLe (nth l i).title (nth l (largestOf l n i)).title
    ∧ (2 * i + 1 < n → strLe (nth l (2 * i + 1)).title (nth l (largestOf l n i)).title)
    ∧ (2 * i + 2 < n → strLe (nth l (2 * i + 2)).title (nth l (largestOf l n i)).title) := by
  obtain ⟨h₁, h₂, h₃⟩ := largestOf1_facts l n i
  by_cases hc : 2 * i + 2 < n ∧ strLt (nth l (largestOf1 l n i)).title (nth l (2 * i + 2)).title
  · rw [largestOf, if_pos hc]
    refine ⟨Or.inr (Or.inr ⟨rfl, hc.1⟩), strLe_trans h₂ (strLe_of_strLt hc.2), ?_, ?_⟩
    · intro hlt
      exact strLe_trans (h₃ hlt) (strLe_of_strLt hc.2)
    · intro _
      exact strLe_refl _
  · rw [largestOf, if_neg hc]
    refine ⟨?_, h₂, h₃, ?_⟩
    · rcases h₁ with h' | h'
      · exact Or.inl h'
      · exact Or.inr (Or.inl h')
    · intro hlt
      rcases Decidable.not_and_iff_or_not.mp hc with h' | h'
      · omega
      · exact strLe_of_not_strLt h'

theorem largestOf_range {l : List Bid} {n i : Nat} (h : largestOf l n i ≠ i) :
    i < largestOf l n i ∧ largestOf l n i < n := by
  rcases (largestOf_facts l n i).1 with h' | h' | h'
  · exact absurd h' h
  · omega
  · omega

theorem largestOf_inTree (l : List Bid) (n i : Nat) : InTree i (largestOf l n i) := by
  rcases (largestOf_facts l n i).1 with h' | h' | h'
  · rw [h']
    exact InTree.refl
  · rw [h'.1]
    exact InTree.left InTree.refl
  · rw [h'.1]
    exact InTree.right InTree.refl

theorem value_le_root {l : List Bid} {n r : Nat}
    (hcc : ∀ j, r ≤ j → childCond n l j) :
    ∀ k, InTree r k → k < n → strLe (nth l k).title (nth l r).title := by
  intro k hk
  induction hk with
  | refl => intro _; exact strLe_refl _
  | @left j hj ih =>
    intro hlt
    have hjn : j < n := by omega
    have := (hcc j hj.ge).1 hlt
    exact strLe_trans this (ih hjn)
  | @right j hj ih =>
    intro hlt
    have hjn : j < n := by omega
    have := (hcc j hj.ge).2 hlt
    exact strLe_trans this (ih hjn)

end BidSorter

theorem inTree_parent_of {lg c p : Nat} (h : InTree lg c)
    (hc : c = 2 * p + 1 ∨ c = 2 * p + 2) : c = lg ∨ InTree lg p := by
  by_cases hcl : c = lg
  · exact Or.inl hcl
  · obtain ⟨j', hj', hcj'⟩ := h.parent hcl
    have : j' = p := by omega
    subst this
    exact Or.inr hj'

namespace BidSorter

theorem heapifyF_spec :
    ∀ fuel n i l, n ≤ l.length → n - i ≤ fuel →
      (∀ j, i < j → childCond n l j) →
      (heapifyF fuel n i l).length = l.length
      ∧ (∀ j, i ≤ j → childCond n (heapifyF fuel n i l) j)
      ∧ (∀ k, ¬ InTree i k → nth (heapifyF fuel n i l) k = nth l k)
      ∧ ((heapifyF fuel n i l).take n).Perm (l.take n)
      ∧ (∀ k, n ≤ k → nth (heapifyF fuel n i l) k = nth l k)
      ∧ (∀ k, k < n → InTree i k →
          ∃ k₀, k₀ < n ∧ InTree i k₀ ∧ nth (heapifyF fuel n i l) k = nth l k₀) := by
  intro fuel
  induction fuel with
  | zero =>
    intro n i l hn hfuel hcc
    have hni : n ≤ i := by omega
    refine ⟨rfl, ?_, fun k _ => rfl, List.Perm.refl _, fun k _ => rfl,
      fun k hk hik => ⟨k, hk, hik, rfl⟩⟩
    intro j hj
    rcases Nat.eq_or_lt_of_le hj with h' | h'
    · subst h'
      exact ⟨fun h => by omega, fun h => by omega⟩
    · exact hcc j h'
  | succ fuel ih =>
    intro n i l hn hfuel hcc
    by_cases hlg : largestOf l n i ≠ i
    · obtain ⟨hilg, hlgn⟩ := largestOf_range hlg
      set lg := largestOf l n i with hlgdef
      have hstep : heapifyF (fuel + 1) n i l = heapifyF fuel n lg (swapIdx l i lg) := by
        simp only [heapifyF, ← hlgdef, if_pos hlg]
      set l' := swapIdx l i lg with hl'
      have hlen' : l'.length = l.length := length_swapIdx l i lg
      have hin_lg : InTree i lg := largestOf_inTree l n i
      have hlgchild : lg = 2 * i + 1 ∨ lg = 2 * i + 2 := by
        rcases (largestOf_facts l n i).1 with h' | h' | h'
        · exact absurd h' hlg
        · exact Or.inl h'.1
        · exact Or.inr h'.1
      have hswi : nth l' i = nth l lg := nth_swapIdx_left (by omega) (by omega)
      have hswlg : nth l' lg = nth l i := nth_swapIdx_right (by omega)
      have hswo : ∀ k, k ≠ i → k ≠ lg → nth l' k = nth l k :=
        fun k h₁ h₂ => nth_swapIdx_other h₁ h₂
      have hcc' : ∀ j, lg < j → childCond n l' j := by
        intro j hj
        have h₁ := hcc j (by omega)
        refine ⟨fun h => ?_, fun h => ?_⟩
        · rw [hswo j (by omega) (by omega), hswo (2 * j + 1) (by omega) (by omega)]
          exact h₁.1 h
        · rw [hswo j (by omega) (by omega), hswo (2 * j + 2) (by omega) (by omega)]
          exact h₁.2 h
      obtain ⟨ha₁, ha₂, ha₃, ha₄, ha₅, ha₆⟩ :=
        ih n lg l' (by omega) (by omega) hcc'
      rw [hstep]
      have hvlr : ∀ k, InTree lg k → k < n → strLe (nth l k).title (nth l lg).title :=
        value_le_root (fun j hj => by
          rcases Nat.eq_or_lt_of_le hj with h' | h'
          · subst h'
            exact hcc lg (by omega)
          · exact hcc j (by omega))
      -- value at subtree positions of `lg` after sifting, bounded by the old root value
      have hboundlg : ∀ k, k < n → InTree lg k →
          strLe (nth (heapifyF fuel n lg l') k).title (nth l lg).title := by
        intro k hk hik
        obtain ⟨k₀, hk₀n, hk₀t, hk₀e⟩ := ha₆ k hk hik
        rw [hk₀e]
        by_cases hk₀lg : k₀ = lg
        · subst hk₀lg
          rw [hswlg]
          exact (largestOf_facts l n i).2.1
        · rw [hswo k₀ (by have := hk₀t.ge; omega) hk₀lg]
          exact hvlr k₀ hk₀t hk₀n
      have hnoti : ¬ InTree lg i := fun h => by have := h.ge; omega
      have houti : nth (heapifyF fuel n lg l') i = nth l lg := by
        rw [ha₃ i hnoti, hswi]
      refine ⟨ha₁.trans hlen', ?_, ?_, ?_, ?_, ?_⟩
      · -- the heap condition from `i` down
        intro j hj
        rcases Nat.lt_or_ge j lg with hjlg | hjlg
        · rcases Nat.eq_or_lt_of_le hj with h' | h'
          · -- j = i : both children are at most the new root value
            rw [← h']
            have hchild : ∀ c, (c = 2 * i + 1 ∨ c = 2 * i + 2) → c < n →
                strLe (nth (heapifyF fuel n lg l') c).title
                  (nth (heapifyF fuel n lg l') i).title := by
              intro c hcj hcn
              rw [houti]
              by_cases hclg : c = lg
              · subst hclg
                exact hboundlg lg hcn InTree.refl
              · have hnotc : ¬ InTree lg c := by
                  intro hT
                  rcases inTree_parent_of hT hcj with h'' | h''
                  · exact hclg h''
                  · exact hnoti h''
                rw [ha₃ c hnotc, hswo c (by omega) hclg]
                rcases hcj with h'' | h''
                · subst h''
                  exact (largestOf_facts l n i).2.2.1 hcn
                · subst h''
                  exact (largestOf_facts l n i).2.2.2 hcn
            exact ⟨fun h => hchild _ (Or.inl rfl) h, fun h => hchild _ (Or.inr rfl) h⟩
          · -- i < j < lg : node and children are untouched
            have hnotj : ¬ InTree lg j := fun hT => by have := hT.ge; omega
            have hchild : ∀ c, (c = 2 * j + 1 ∨ c = 2 * j + 2) → ¬ InTree lg c := by
              intro c hcj hT
              rcases inTree_parent_of hT hcj with h'' | h''
              · -- c = lg : then lg is a child of both i and j, impossible
                rcases hlgchild with h₃ | h₃ <;> omega
              · have := h''.ge
                omega
            have h₁ := hcc j h'
            refine ⟨fun h => ?_, fun h => ?_⟩
            · rw [ha₃ j hnotj, hswo j (by omega) (by omega),
                ha₃ _ (hchild _ (Or.inl rfl)), hswo (2 * j + 1) (by omega) ?_]
              · exact h₁.1 h
              · intro hc
                exact hchild _ (Or.inl rfl) (hc ▸ InTree.refl)
            · rw [ha₃ j hnotj, hswo j (by omega) (by omega),
                ha₃ _ (hchild _ (Or.inr rfl)), hswo (2 * j + 2) (by omega) ?_]
              · exact h₁.2 h
              · intro hc
                exact hchild _ (Or.inr rfl) (hc ▸ InTree.refl)
        · exact ha₂ j hjlg
      · -- untouched outside the subtree of `i`
        intro k hk
        have hknoti : k ≠ i := fun h => hk (h ▸ InTree.refl)
        have hknotlg : k ≠ lg := fun h => hk (h ▸ hin_lg)
        have : ¬ InTree lg k := fun hT => hk (hin_lg.trans hT)
        rw [ha₃ k this, hswo k hknoti hknotlg]
      · exact ha₄.trans (take_swapIdx_perm (by omega) hlgn hn)
      · intro k hk
        rw [ha₅ k hk, hswo k (by omega) (by omega)]
      · -- values inside the subtree come from the subtree
        intro k hk hik
        by_cases hT : InTree lg k
        · obtain ⟨k₀, hk₀n, hk₀t, hk₀e⟩ := ha₆ k hk hT
          by_cases hk₀lg : k₀ = lg
          · subst hk₀lg
            rw [hk₀e, hswlg]
            exact ⟨i, by omega, InTree.refl, rfl⟩
          · rw [hk₀e, hswo k₀ (by have := hk₀t.ge; omega) hk₀lg]
            exact ⟨k₀, hk₀n, hin_lg.trans hk₀t, rfl⟩
        · rw [ha₃ k hT]
          by_cases hki : k = i
          · subst hki
            rw [hswi]
            exact ⟨lg, hlgn, hin_lg, rfl⟩
          · rw [hswo k hki (fun h => hT (h ▸ InTree.refl))]
            exact ⟨k, hk, hik, rfl⟩
    · -- the largest is the node itself: nothing to do
      simp only [ne_eq, not_not] at hlg
      have hstep : heapifyF (fuel + 1) n i l = l := by
        simp only [heapifyF, hlg]
        simp
      rw [hstep]
      refine ⟨rfl, ?_, fun k _ => rfl, List.Perm.refl _, fun k _ => rfl,
        fun k hk hik => ⟨k, hk, hik, rfl⟩⟩
      intro j hj
      rcases Nat.eq_or_lt_of_le hj with h' | h'
      · rw [← h']
        have h₁ := (largestOf_facts l n i).2.2.1
        have h₂ := (largestOf_facts l n i).2.2.2
        rw [hlg] at h₁ h₂
        exact ⟨h₁, h₂⟩
      · exact hcc j h'

end BidSorter

theorem nth_mem_take {l : List Bid} {p n : Nat} (hp : p < n) (hn : n ≤ l.length) :
    nth l p ∈ l.take n := by
  apply List.mem_iff_getElem.mpr
  refine ⟨p, by simp; omega, ?_⟩
  rw [List.getElem_take _]
  exact (nth_eq_getElem (by omega)).symm

theorem mem_take_nth {l : List Bid} {n : Nat} {x : Bid} (h : x ∈ l.take n) :
    ∃ p, p < n ∧ p < l.length ∧ nth l p = x := by
  obtain ⟨p, hp, hpe⟩ := List.mem_iff_getElem.mp h
  have hp' : p < n ∧ p < l.length := by simp at hp; omega
  refine ⟨p, hp'.1, hp'.2, ?_⟩
  rw [← hpe, List.getElem_take _]
  exact nth_eq_getElem hp'.2

namespace BidSorter

theorem heapify_spec {n i : Nat} {l : List Bid} (hn : n ≤ l.length)
    (hcc : ∀ j, i < j → childCond n l j) :
    (heapify n i l).length = l.length
    ∧ (∀ j, i ≤ j → childCond n (heapify n i l) j)
    ∧ ((heapify n i l).take n).Perm (l.take n)
    ∧ (∀ k, n ≤ k → nth (heapify n i l) k = nth l k) := by
  obtain ⟨h₁, h₂, h₃, h₄, h₅, h₆⟩ := heapifyF_spec (n + 1) n i l hn (by omega) hcc
  exact ⟨h₁, h₂, h₄, h₅⟩

theorem buildHeap_spec (n : Nat) :
    ∀ c l, n ≤ l.length → (∀ j, c ≤ j → childCond n l j) →
      (buildHeap n c l).length = l.length
      ∧ ((buildHeap n c l).take n).Perm (l.take n)
      ∧ (∀ k, n ≤ k → nth (buildHeap n c l) k = nth l k)
      ∧ (∀ j, childCond n (buildHeap n c l) j) := by
  intro c
  induction c with
  | zero =>
    intro l hn hcc
    exact ⟨rfl, List.Perm.refl _, fun k _ => rfl, fun j => hcc j (by omega)⟩
  | succ c ih =>
    intro l hn hcc
    have hstep : buildHeap n (c + 1) l = buildHeap n c (heapify n c l) := rfl
    obtain ⟨h₁, h₂, h₃, h₄⟩ := heapify_spec (n := n) (i := c) hn (fun j hj => hcc j (by omega))
    obtain ⟨g₁, g₂, g₃, g₄⟩ := ih (heapify n c l) (by omega) h₂
    rw [hstep]
    exact ⟨g₁.trans h₁, g₂.trans h₃, fun k hk => (g₃ k hk).trans (h₄ k hk), g₄⟩

theorem extractLoop_spec (N : Nat) :
    ∀ m l, l.length = N → m < N →
      (∀ j, childCond (m + 1) l j) →
      (∀ p q, p < m + 1 → m + 1 ≤ q → q < N → strLe (nth l p).title (nth l q).title) →
      sortedOn l (m + 1) (N - 1) →
      (extractLoop m l).length = N ∧ (extractLoop m l).Perm l
        ∧ sortedByTitle (extractLoop m l) := by
  intro m
  induction m with
  | zero =>
    intro l hlen hm hheap hcross hsorted
    simp only [extractLoop]
    refine ⟨hlen, List.Perm.refl _, ?_⟩
    rw [sortedByTitle_iff_nth]
    intro p q hpq hq
    rcases Nat.eq_zero_or_pos p with hp | hp
    · subst hp
      exact hcross 0 q (by omega) (by omega) (by omega)
    · exact hsorted p q (by omega) hpq (by omega) hq
  | succ j ih =>
    intro l hlen hm hheap hcross hsorted
    have hstep : extractLoop (j + 1) l = extractLoop j (heapify (j + 1) 0 (swapIdx l 0 (j + 1))) := rfl
    have hj2 : j + 2 ≤ l.length := by omega
    have h0len : 0 < l.length := by omega
    have hj1len : j + 1 < l.length := by omega
    have hroot : ∀ p, p < j + 2 → strLe (nth l p).title (nth l 0).title :=
      fun p hp => value_le_root (fun j' _ => hheap j') p (inTree_zero p) hp
    set l₁ := swapIdx l 0 (j + 1) with hl₁
    have hl₁len : l₁.length = l.length := length_swapIdx l 0 (j + 1)
    have hsw0 : nth l₁ 0 = nth l (j + 1) := nth_swapIdx_left h0len (by omega)
    have hswj : nth l₁ (j + 1) = nth l 0 := nth_swapIdx_right hj1len
    have hswo : ∀ k, k ≠ 0 → k ≠ j + 1 → nth l₁ k = nth l k :=
      fun k h₁ h₂ => nth_swapIdx_other h₁ h₂
    have hcc₁ : ∀ j', 0 < j' → childCond (j + 1) l₁ j' := by
      intro j' hj'
      have h₁ := hheap j'
      refine ⟨fun h => ?_, fun h => ?_⟩
      · rw [hswo j' (by omega) (by omega), hswo (2 * j' + 1) (by omega) (by omega)]
        exact h₁.1 (by omega)
      · rw [hswo j' (by omega) (by omega), hswo (2 * j' + 2) (by omega) (by omega)]
        exact h₁.2 (by omega)
    obtain ⟨hb₁, hb₂, hb₃, hb₄⟩ := heapify_spec (by omega) hcc₁
    set l₂ := heapify (j + 1) 0 l₁ with hl₂
    have hl₂len : l₂.length = N := by rw [hb₁, hl₁len, hlen]
    have hl₂perm : l₂.Perm l₁ := perm_of_take_perm (j + 1) hb₁ hb₃ hb₄
    -- the new cross property at the shrunken boundary
    have hcross' : ∀ p q, p < j + 1 → j + 1 ≤ q → q < N → strLe (nth l₂ p).title (nth l₂ q).title := by
      intro p q hp hq hqN
      have hqv : nth l₂ q = nth l₁ q := hb₄ q hq
      have hpv : nth l₂ p ∈ l₂.take (j + 1) := nth_mem_take hp (by omega)
      have hpv' : nth l₂ p ∈ l₁.take (j + 1) := hb₃.mem_iff.mp hpv
      obtain ⟨p', hp', hp'len, hp'e⟩ := mem_take_nth hpv'
      rw [hqv, ← hp'e]
      rcases Nat.eq_or_lt_of_le hq with hq1 | hq1
      · -- q = j + 1 holds the old root
        rw [← hq1, hswj]
        rcases Nat.eq_zero_or_pos p' with hp0 | hp0
        · subst hp0
          rw [hsw0]
          exact hroot (j + 1) (by omega)
        · rw [hswo p' (by omega) (by omega)]
          exact hroot p' (by omega)
      · -- q ≥ j + 2 is old sorted suffix
        rw [hswo q (by omega) (by omega)]
        rcases Nat.eq_zero_or_pos p' with hp0 | hp0
        · subst hp0
          rw [hsw0]
          exact hcross (j + 1) q (by omega) (by omega) hqN
        · rw [hswo p' (by omega) (by omega)]
          exact hcross p' q (by omega) (by omega) hqN
    have hsorted' : sortedOn l₂ (j + 1) (N - 1) := by
      intro i' j' hi' hij' hj' hj'len
      rw [hl₂len] at hj'len
      have hv₁ : nth l₂ i' = nth l₁ i' := hb₄ i' (by omega)
      have hv₂ : nth l₂ j' = nth l₁ j' := hb₄ j' (by omega)
      rw [hv₁, hv₂]
      rcases Nat.eq_or_lt_of_le hi' with hi1 | hi1
      · rw [← hi1, hswj, hswo j' (by omega) (by omega)]
        exact hcross 0 j' (by omega) (by omega) (by omega)
      · rw [hswo i' (by omega) (by omega), hswo j' (by omega) (by omega)]
        exact hsorted i' j' (by omega) hij' (by omega) (by omega)
    obtain ⟨g₁, g₂, g₃⟩ := ih l₂ hl₂len (by omega) (fun j' => hb₂ j' (by omega))
      hcross' hsorted'
    rw [hstep]
    refine ⟨g₁, ?_, g₃⟩
    exact (g₂.trans hl₂perm).trans (swapIdx_perm h0len hj1len)

theorem heapSort_spec (l : List Bid) :
    (heapSort l).length = l.length ∧ (heapSort l).Perm l ∧ sortedByTitle (heapSort l) := by
  by_cases hl : l = []
  · subst hl
    exact ⟨rfl, List.Perm.refl _, List.Pairwise.nil⟩
  · have hN : 1 ≤ l.length := by
      rcases l with _ | ⟨x, xs⟩
      · exact absurd rfl hl
      · simp
    have hstep : heapSort l = extractLoop (l.length - 1) (buildHeap l.length (l.length / 2) l) := by
      simp only [heapSort, if_neg hl]
    obtain ⟨hb₁, hb₂, hb₃, hb₄⟩ := buildHeap_spec l.length (l.length / 2) l le_rfl
      (by
        intro j hj
        exact ⟨fun h => by omega, fun h => by omega⟩)
    have hbperm : (buildHeap l.length (l.length / 2) l).Perm l :=
      perm_of_take_perm l.length hb₁ hb₂ hb₃
    obtain ⟨g₁, g₂, g₃⟩ := extractLoop_spec l.length (l.length - 1)
      (buildHeap l.length (l.length / 2) l) hb₁ (by omega)
      (by
        intro j
        have := hb₄ j
        have harith : l.length - 1 + 1 = l.length := by omega
        rw [harith]
        exact this)
      (by
        intro p q _ hq hqN
        omega)
      (by
        intro i' j' hi' hij' hj' _
        omega)
    rw [hstep]
    exact ⟨g₁, g₂.trans hbperm, g₃⟩

end BidSorter

theorem sliceOf_full (l : List Bid) : sliceOf l 0 (l.length - 1) = l := by
  simp only [sliceOf, List.drop_zero]
  exact List.take_of_length_le (by omega)

namespace BidSorter

theorem quickSort_degenerate {fuel : Nat} {l : List Bid} {b e : Nat} (hf : 1 ≤ fuel)
    (hbe : e ≤ b ∨ l = []) : quickSort fuel l b e = some l := by
  match fuel, hf with
  | fuel + 1, _ =>
    have : l = [] ∨ e ≤ b := by tauto
    simp only [quickSort, if_pos this]

theorem mergeSortF_degenerate {fuel : Nat} {l : List Bid} {left right : Nat} (hf : 1 ≤ fuel)
    (hlr : left ≥ right ∨ l = []) : mergeSortF fuel l left right = l := by
  match fuel, hf with
  | fuel + 1, _ =>
    have : l = [] ∨ left ≥ right := by tauto
    simp only [mergeSortF, if_pos this]

theorem mergeSort_degenerate {l : List Bid} {left right : Nat}
    (hlr : left ≥ right ∨ l = []) : mergeSort l left right = l :=
  mergeSortF_degenerate (by omega) hlr

theorem quickSort_runAlg (l : List Bid) :
    quickSort (l.length + 1) l 0 (l.length - 1) = some (runAlg .quick l) := by
  by_cases hl : l = []
  · subst hl
    rfl
  · have hlen : 1 ≤ l.length := by
      rcases l with _ | ⟨x, xs⟩
      · exact absurd rfl hl
      · simp
    obtain ⟨l', hq, _, _, _, _⟩ :=
      quickSort_spec (l.length + 1) l 0 (l.length - 1) (by omega) (by omega)
    simp [runAlg, hq]

theorem mergeSort_runAlg_spec (l : List Bid) :
    (runAlg .merge l).length = l.length ∧ (runAlg .merge l).Perm l
      ∧ sortedByTitle (runAlg .merge l)
      ∧ ∀ t, (runAlg .merge l).filter (fun z => decide (z.title = t))
          = l.filter (fun z => decide (z.title = t)) := by
  by_cases hl : l = []
  · subst hl
    exact ⟨rfl, List.Perm.refl _, List.Pairwise.nil, fun t => rfl⟩
  · have hlen : 1 ≤ l.length := by
      rcases l with _ | ⟨x, xs⟩
      · exact absurd rfl hl
      · simp
    obtain ⟨h₁, h₂, h₃, h₄, h₅⟩ :=
      mergeSortF_spec (l.length - 1 - 0 + 1) l 0 (l.length - 1) (by omega) (by omega)
    have hout : runAlg .merge l = mergeSortF (l.length - 1 - 0 + 1) l 0 (l.length - 1) := rfl
    have hslice := sliceOf_full l
    have hslice' : sliceOf (mergeSortF (l.length - 1 - 0 + 1) l 0 (l.length - 1)) 0
        (l.length - 1) = mergeSortF (l.length - 1 - 0 + 1) l 0 (l.length - 1) := by
      have := sliceOf_full (mergeSortF (l.length - 1 - 0 + 1) l 0 (l.length - 1))
      rwa [h₁] at this
    rw [hout]
    rw [hslice'] at h₃ h₄ h₅
    rw [hslice] at h₃ h₅
    exact ⟨h₁, h₃, h₄, h₅⟩

end BidSorter

/-- Combined functional-correctness bundle for all four operations as the
program runs them. -/
theorem runAlg_spec (a : SortAlg) (l : List Bid) :
    (runAlg a l).length = l.length ∧ (runAlg a l).Perm l ∧ sortedByTitle (runAlg a l) := by
  cases a with
  | selection => exact BidSorter.selectionSort_spec l
  | quick =>
    by_cases hl : l = []
    · subst hl
      exact ⟨rfl, List.Perm.refl _, List.Pairwise.nil⟩
    · have hlen : 1 ≤ l.length := by
        rcases l with _ | ⟨x, xs⟩
        · exact absurd rfl hl
        · simp
      obtain ⟨l', hq, hq₁, hq₂, hq₃, hq₄⟩ :=
        BidSorter.quickSort_spec (l.length + 1) l 0 (l.length - 1) (by omega) (by omega)
      have : runAlg .quick l = l' := by simp [runAlg, hq]
      rw [this]
      refine ⟨hq₁, hq₂, sortedByTitle_of_sortedOn ?_⟩
      rw [hq₁]
      exact hq₄
  | merge =>
    obtain ⟨h₁, h₂, h₃, _⟩ := BidSorter.mergeSort_runAlg_spec l
    exact ⟨h₁, h₂, h₃⟩
  | heap => exact BidSorter.heapSort_spec l

/-- A permutation of a sorted list with pairwise-distinct titles that is
itself sorted is that very list. -/
theorem eq_of_perm_of_sorted_of_distinct :
    ∀ {l l' : List Bid}, l'.Perm l → sortedByTitle l → sortedByTitle l' →
      List.Pairwise (fun a b => a.title ≠ b.title) l → l' = l := by
  intro l
  induction l with
  | nil =>
    intro l' hp _ _ _
    exact hp.eq_nil
  | cons x xs ih =>
    intro l' hp hs hs' hd
    rcases List.pairwise_cons.mp hs with ⟨hx₁, hx₂⟩
    rcases List.pairwise_cons.mp hd with ⟨hd₁, hd₂⟩
    match l', hp with
    | [], hp => exact absurd hp.length_eq (by simp)
    | y :: ys, hp =>
      rcases List.pairwise_cons.mp hs' with ⟨hy₁, hy₂⟩
      have hyx : y = x := by
        have hymem : y ∈ x :: xs := hp.mem_iff.mp (List.mem_cons_self y ys)
        rcases List.mem_cons.mp hymem with h' | h'
        · exact h'
        · -- y ∈ xs : then x ∈ y :: ys forces a title collision
          exfalso
          have hxy : strLe x.title y.title := hx₁ y h'
          have hxmem : x ∈ y :: ys := hp.mem_iff.mpr (List.mem_cons_self x xs)
          rcases List.mem_cons.mp hxmem with h'' | h''
          · exact hd₁ y h' (by rw [h''])
          · have hyx' : strLe y.title x.title := hy₁ x h''
            exact hd₁ y h' (strLe_antisymm hxy hyx')
      subst hyx
      have hys : ys.Perm xs := (List.perm_cons y).mp hp
      rw [ih hys hx₂ hy₂ hd₂]

theorem distinct_titles_of_perm {l l' : List Bid} (hp : l'.Perm l)
    (hd : List.Pairwise (fun a b => a.title ≠ b.title) l) :
    List.Pairwise (fun a b => a.title ≠ b.title) l' := by
  refine (hp.pairwise_iff ?_).mpr hd
  intro a b hab
  exact (hab ∘ Eq.symm)

namespace BidSorter

theorem mergeRunsF_append :
    ∀ (k : Nat) (xs ys : List Bid), xs.length + ys.length ≤ k →
      (∀ x ∈ xs, ∀ y ∈ ys, strLe x.title y.title) → mergeRunsF k xs ys = xs ++ ys := by
  intro k
  induction k with
  | zero =>
    intro xs ys hk _
    have hx : xs = [] := List.eq_nil_of_length_eq_zero (by omega)
    have hy : ys = [] := List.eq_nil_of_length_eq_zero (by omega)
    subst hx
    subst hy
    rfl
  | succ k ih =>
    intro xs ys hk hcross
    match xs, ys with
    | [], ys => rfl
    | x :: xs, [] => simp [mergeRunsF]
    | x :: xs, y :: ys =>
      have hxy : strLe x.title y.title :=
        hcross x (List.mem_cons_self x xs) y (List.mem_cons_self y ys)
      simp only [mergeRunsF, if_pos hxy]
      rw [ih xs (y :: ys) (by simp only [List.length_cons] at hk ⊢; omega)
        (fun a ha b hb => hcross a (List.mem_cons_of_mem x ha) b hb)]
      rfl

theorem mergeRuns_append {xs ys : List Bid}
    (hcross : ∀ x ∈ xs, ∀ y ∈ ys, strLe x.title y.title) :
    mergeRuns xs ys = xs ++ ys :=
  mergeRunsF_append _ xs ys (le_refl _) hcross

/-- `mergeSort` on an already-sorted list is the identity. -/
theorem mergeSortF_id :
    ∀ (fuel : Nat) (l : List Bid) (left right : Nat), right < l.length →
      sortedByTitle l → mergeSortF fuel l left right = l := by
  intro fuel
  induction fuel with
  | zero => intro l left right _ _; rfl
  | succ fuel ih =>
    intro l left right hr hs
    by_cases hg : l = [] ∨ left ≥ right
    · simp only [mergeSortF, if_pos hg]
    · have hlr : left < right := by
        by_contra h
        exact hg (Or.inr (by omega))
      have hmid₁ : left ≤ left + (right - left) / 2 := by omega
      have hmid₂ : left + (right - left) / 2 < right := by omega
      have hcross : ∀ x ∈ sliceOf l left (left + (right - left) / 2),
          ∀ y ∈ sliceOf l (left + (right - left) / 2 + 1) right,
            strLe x.title y.title := by
        intro x hx y hy
        obtain ⟨k₁, hk₁a, hk₁b, hk₁c, hk₁x⟩ := mem_sliceOf.mp hx
        obtain ⟨k₂, hk₂a, hk₂b, hk₂c, hk₂y⟩ := mem_sliceOf.mp hy
        rw [← hk₁x, ← hk₂y]
        exact sortedByTitle_iff_nth.mp hs k₁ k₂ (by omega) hk₂c
      simp only [mergeSortF, if_neg hg]
      rw [ih l left (left + (right - left) / 2) (by omega) hs]
      rw [ih l (left + (right - left) / 2 + 1) right hr hs]
      rw [merge_eq hmid₁ hmid₂ hr]
      rw [mergeRuns_append hcross, sliceOf_concat (by omega) (by omega)]
      exact sliceOf_append l left right (by omega)

theorem mergeSort_runAlg_id {l : List Bid} (hs : sortedByTitle l) :
    runAlg .merge l = l := by
  by_cases hl : l = []
  · subst hl; rfl
  · have hlen : 1 ≤ l.length := by
      rcases l with _ | ⟨x, xs⟩
      · exact absurd rfl hl
      · simp
    exact mergeSortF_id (l.length - 1 - 0 + 1) l 0 (l.length - 1) (by omega) hs

end BidSorter

/-- Sorting an already-sorted list with pairwise-distinct titles is the
identity, for every algorithm. -/
theorem runAlg_id_of_sorted_of_distinct (a : SortAlg) {l : List Bid}
    (hs : sortedByTitle l) (hd : List.Pairwise (fun x y => x.title ≠ y.title) l) :
    runAlg a l = l := by
  obtain ⟨_, hperm, hsorted⟩ := runAlg_spec a l
  exact eq_of_perm_of_sorted_of_distinct hperm hs hsorted hd

/-- Every algorithm is idempotent on lists with pairwise-distinct titles. -/
theorem runAlg_idem_of_distinct (a : SortAlg) {l : List Bid}
    (hd : List.Pairwise (fun x y => x.title ≠ y.title) l) :
    runAlg a (runAlg a l) = runAlg a l := by
  obtain ⟨_, hperm, hsorted⟩ := runAlg_spec a l
  exact runAlg_id_of_sorted_of_distinct a hsorted (distinct_titles_of_perm hperm hd)

/-- Selection sort and merge sort are idempotent unconditionally. -/
theorem runAlg_idem_stable {a : SortAlg} (hst : a = .selection ∨ a = .merge)
    (l : List Bid) : runAlg a (runAlg a l) = runAlg a l := by
  obtain ⟨_, _, hsorted⟩ := runAlg_spec a l
  rcases hst with h | h <;> subst h
  · exact BidSorter.selectionSort_of_sorted hsorted
  · exact BidSorter.mergeSort_runAlg_id hsorted

/-- Length-0 and length-1 inputs are returned unchanged by every algorithm. -/
theorem runAlg_short (a : SortAlg) {l : List Bid} (hl : l.length ≤ 1) :
    runAlg a l = l := by
  rcases l with _ | ⟨x, xs⟩
  · cases a <;> rfl
  · rcases xs with _ | ⟨y, ys⟩
    · cases a with
      | heap =>
        show BidSorter.heapSort [x] = [x]
        simp only [BidSorter.heapSort]
        rw [if_neg (by simp), show ([x] : List Bid).length = 1 from rfl]
        exact rfl
      | selection => rfl
      | quick => rfl
      | merge => rfl
    · simp at hl

theorem orig_scanLow_unfold (p : String) (l : List Bid) (low : Nat) (h : low < l.length) :
    Original.scanLow p l low =
      if strLt (nth l low).title p
      then (Original.scanLow p l (low + 1)).map (fun r => (r.1, low :: r.2))
      else some (low, [low]) := by
  have hk : l.length - low = (l.length - (low + 1)) + 1 := by omega
  have hread : l[low]? = some l[low] := List.getElem?_eq_getElem h
  rw [Original.scanLow, hk]
  simp only [Original.scanLowF, hread]
  rw [← nth_eq_getElem h]
  rfl

theorem enh_scanLow_unfold (p : String) (e : Nat) (l : List Bid) (low : Nat) (hle : low ≤ e)
    (h : low < l.length) :
    BidSorter.scanLow p e l low =
      if strLt (nth l low).title p
      then (BidSorter.scanLow p e l (low + 1)).map (fun r => (r.1, low :: r.2))
      else some (low, [low]) := by
  have hk : e + 1 - low = (e + 1 - (low + 1)) + 1 := by omega
  have hread : l[low]? = some l[low] := List.getElem?_eq_getElem h
  rw [BidSorter.scanLow, hk]
  simp only [BidSorter.scanLowF, hread]
  rw [← nth_eq_getElem h]
  rfl

/-- Under a stopper at `s`, the unguarded low scan of the original partition
agrees with the guarded enhanced one: the guard never fires. -/
theorem orig_scanLow_eq (p : String) (e : Nat) (l : List Bid) :
    ∀ d low s, s - low = d → low ≤ s → s ≤ e → s < l.length → strLe p (nth l s).title →
      Original.scanLow p l low = BidSorter.scanLow p e l low := by
  intro d
  induction d with
  | zero =>
    intro low s hd h₁ h₂ h₃ hsp
    have hls : s = low := by omega
    subst hls
    have hc : ¬ strLt (nth l s).title p := not_strLt_of_strLe hsp
    rw [orig_scanLow_unfold p l s h₃, enh_scanLow_unfold p e l s (by omega) h₃,
      if_neg hc, if_neg hc]
  | succ d ih =>
    intro low s hd h₁ h₂ h₃ hsp
    have hlow : low < l.length := by omega
    rw [orig_scanLow_unfold p l low hlow, enh_scanLow_unfold p e l low (by omega) hlow]
    by_cases hc : strLt (nth l low).title p
    · rw [if_pos hc, if_pos hc, ih (low + 1) s (by omega) (by omega) h₂ h₃ hsp]
    · rw [if_neg hc, if_neg hc]

/-- Under a stopper at `s ≥ b`, the unguarded high scan of the original
partition agrees with the `≥ begin`-guarded enhanced one. -/
theorem orig_scanHigh_eq (p : String) (b : Nat) (l : List Bid) :
    ∀ high s, b ≤ s → s ≤ high → high < l.length → strLe (nth l s).title p →
      Original.scanHigh p l high = BidSorter.scanHigh p b l high := by
  intro high
  induction high with
  | zero =>
    intro s h₁ h₂ hlen hsp
    have hs0 : s = 0 := by omega
    subst hs0
    simp only [Original.scanHigh, BidSorter.scanHigh, if_pos (show b ≤ 0 by omega)]
  | succ high ih =>
    intro s h₁ h₂ hlen hsp
    have hread : l[high + 1]? = some l[high + 1] := List.getElem?_eq_getElem hlen
    simp only [Original.scanHigh, BidSorter.scanHigh,
      if_pos (show b ≤ high + 1 by omega), hread]
    rw [← nth_eq_getElem hlen]
    by_cases hc : strLt p (nth l (high + 1)).title
    · have hne : s ≠ high + 1 := by
        intro h
        rw [h] at hsp
        exact strLt_irrefl (nth l (high + 1)).title (strLt_of_strLe_of_strLt hsp hc)
      rw [if_pos hc, if_pos hc, ih s h₁ (by omega) (by omega) hsp]
    · rw [if_neg hc, if_neg hc]

/-- With valid stoppers, the original partition loop — whose scans carry no
bound guards — computes exactly what the enhanced loop computes. -/
theorem orig_partitionLoop_eq (p : String) (b e : Nat) :
    ∀ fuel l low high s₁ s₂,
      e < l.length → b ≤ low → b ≤ high → high ≤ e → high + 1 - low < fuel →
      low ≤ s₁ → s₁ ≤ e → strLe p (nth l s₁).title →
      b ≤ s₂ → s₂ ≤ high → strLe (nth l s₂).title p →
      Original.partitionLoop p fuel l low high
        = BidSorter.partitionLoop p b e fuel l low high := by
  intro fuel
  induction fuel with
  | zero => intro l low high s₁ s₂ _ _ _ _ hfuel _ _ _ _ _ _; omega
  | succ fuel ih =>
    intro l low high s₁ s₂ hlen hblow hbhigh hhighe hfuel hs₁l hs₁e hs₁p hs₂b hs₂h hs₂p
    obtain ⟨low₂, t₁, hsl, hl₁, hl₂, hl₃, hl₄, hl₅, hl₆⟩ :=
      BidSorter.scanLow_spec p e l hs₁l hs₁e (by omega) hs₁p
    obtain ⟨high₂, t₂, hsh, hh₁, hh₂, hh₃, hh₄, hh₅⟩ :=
      BidSorter.scanHigh_spec p b l high s₂ hs₂b hs₂h (by omega) hs₂p
    have hslO : Original.scanLow p l low = some (low₂, t₁) := by
      rw [orig_scanLow_eq p e l (s₁ - low) low s₁ rfl hs₁l hs₁e (by omega) hs₁p]
      exact hsl
    have hshO : Original.scanHigh p l high = some (high₂, t₂) := by
      rw [orig_scanHigh_eq p b l high s₂ hs₂b hs₂h (by omega) hs₂p]
      exact hsh
    by_cases hcross : high₂ ≤ low₂
    · simp only [Original.partitionLoop, BidSorter.partitionLoop, hslO, hsl, hsh, hshO,
        if_pos hcross]
    · have hlow₂len : low₂ < l.length := hl₃
      have hhigh₂len : high₂ < l.length := by omega
      have hswleft : nth (swapIdx l low₂ high₂) low₂ = nth l high₂ :=
        nth_swapIdx_left hlow₂len (by omega)
      have hswright : nth (swapIdx l low₂ high₂) high₂ = nth l low₂ :=
        nth_swapIdx_right hhigh₂len
      have hrec := ih (swapIdx l low₂ high₂) (low₂ + 1) (high₂ - 1) high₂ low₂
        (by rw [length_swapIdx]; omega) (by omega) (by omega) (by omega) (by omega)
        (by omega) (by omega) (by rw [hswright]; exact hl₄)
        (by omega) (by omega) (by rw [hswleft]; exact hh₃)
      simp only [Original.partitionLoop, BidSorter.partitionLoop, hslO, hsl, hsh, hshO,
        if_neg hcross, hrec]

/-- On a nondegenerate in-bounds range the original `partition` returns
exactly what the enhanced `partition` returns, traces included. -/
theorem orig_partition_eq {l : List Bid} {b e : Nat} (hbe : b < e) (he : e < l.length) :
    Original.partition l b e = BidSorter.partition l b e := by
  have hmidlen : b + (e - b) / 2 < l.length := by omega
  have hread : l[b + (e - b) / 2]? = some l[b + (e - b) / 2] :=
    List.getElem?_eq_getElem hmidlen
  have hnth : nth l (b + (e - b) / 2) = l[b + (e - b) / 2] := nth_eq_getElem hmidlen
  have hloop := orig_partitionLoop_eq (l[b + (e - b) / 2]).title b e (e + 2) l b e
    (b + (e - b) / 2) (b + (e - b) / 2)
    he le_rfl (by omega) le_rfl (by omega)
    (by omega) (by omega) (by rw [hnth]; exact strLe_refl _)
    (by omega) (by omega) (by rw [hnth]; exact strLe_refl _)
  simp only [Original.partition, BidSorter.partition, if_neg (show ¬ b ≥ e by omega),
    hread, hloop]

theorem orig_quickSort_degenerate {fuel : Nat} {l : List Bid} {b e : Nat} (hf : 1 ≤ fuel)
    (hbe : e ≤ b) : Original.quickSort fuel l b e = some l := by
  match fuel, hf with
  | fuel + 1, _ => simp only [Original.quickSort, if_pos hbe]

/-- The original `quickSort` — unconditional recursion, unguarded scans —
computes exactly what the enhanced `quickSort` computes on any in-bounds
range with sufficient fuel. -/
theorem orig_quickSort_eq :
    ∀ fuel (l : List Bid) (b e : Nat), e < l.length → e - b < fuel →
      Original.quickSort fuel l b e = BidSorter.quickSort fuel l b e := by
  intro fuel
  induction fuel with
  | zero => intro l b e _ _; rfl
  | succ fuel ih =>
    intro l b e hlen hfuel
    have hne : l ≠ [] := by
      intro h
      rw [h] at hlen
      simp at hlen
    by_cases hguard : e ≤ b
    · simp only [Original.quickSort, BidSorter.quickSort, if_pos hguard,
        if_pos (Or.inr hguard : l = [] ∨ e ≤ b)]
    · have hbe : b < e := by omega
      have hfuel1 : 1 ≤ fuel := by omega
      obtain ⟨m, l₁, t, hpart, hm₁, hm₂, hm₃, hm₄, _, _, _, _, _⟩ :=
        BidSorter.partition_spec (by omega : b ≤ e) hlen
      have hpartO : Original.partition l b e = some (m, l₁, t) := by
        rw [orig_partition_eq hbe hlen]
        exact hpart
      have hmlt : m < e := hm₃ hbe
      have hguardE : ¬ (l = [] ∨ e ≤ b) := by
        push_neg
        exact ⟨hne, by omega⟩
      simp only [Original.quickSort, BidSorter.quickSort, if_neg hguard, if_neg hguardE,
        hpart, hpartO]
      by_cases hbm : b < m
      · obtain ⟨l₂, hq1, hq1len, _, _, _⟩ :=
          BidSorter.quickSort_spec fuel l₁ b m (by omega) (by omega)
        have hq1O : Original.quickSort fuel l₁ b m = some l₂ := by
          rw [ih l₁ b m (by omega) (by omega)]
          exact hq1
        simp only [if_pos hbm, hq1, hq1O, if_pos hmlt]
        exact ih l₂ (m + 1) e (by omega) (by omega)
      · have hmb : m = b := by omega
        have hq1O : Original.quickSort fuel l₁ b m = some l₁ :=
          orig_quickSort_degenerate hfuel1 (by omega)
        simp only [if_neg hbm, hq1O, if_pos hmlt]
        exact ih l₁ (m + 1) e (by omega) (by omega)

/-- The inner scan of the original selection sort never faults while the
bound is within the vector, and computes the enhanced minimum index. -/
theorem orig_selScan_eq (l : List Bid) (n : Nat) :
    ∀ k j m, n ≤ l.length → m < l.length → j + k ≤ n →
      Original.selScanF l k j m = some (BidSorter.findMinF l k j m) := by
  intro k
  induction k with
  | zero => intro j m _ _ _; rfl
  | succ k ih =>
    intro j m hn hm hjk
    by_cases hjlen : j < l.length
    · have hreadj : l[j]? = some l[j] := List.getElem?_eq_getElem hjlen
      have hreadm : l[m]? = some l[m] := List.getElem?_eq_getElem hm
      simp only [Original.selScanF, BidSorter.findMinF, hreadj, hreadm]
      rw [← nth_eq_getElem hjlen, ← nth_eq_getElem hm]
      have hm' : (if strLt (nth l j).title (nth l m).title then j else m) < l.length := by
        split
        · exact hjlen
        · exact hm
      exact ih (j + 1) _ hn hm' (by omega)
    · exact absurd (show j < l.length by omega) hjlen

/-- The outer loop of the original selection sort agrees with the enhanced
one step by step: the unconditional swap at a self-swap position is the
identity, and the bounds checks always pass. -/
theorem orig_selOuter_eq (n : Nat) :
    ∀ k pos l, l.length = n → k + pos = n - 1 →
      Original.selOuterF n k pos l = some (BidSorter.selLoopF n k pos l) := by
  intro k
  induction k with
  | zero => intro pos l _ _; rfl
  | succ k ih =>
    intro pos l hlen hk
    have hpos : pos < n - 1 := by omega
    have hposlen : pos < l.length := by omega
    have hscan : Original.selScan l n (pos + 1) pos
        = some (BidSorter.findMinFrom l n (pos + 1) pos) :=
      orig_selScan_eq l n (n - (pos + 1)) (pos + 1) pos (by omega) hposlen (by omega)
    have hmlt : BidSorter.findMinFrom l n (pos + 1) pos < l.length := by
      rcases (BidSorter.findMinF_spec l (n - (pos + 1)) (pos + 1) pos).1 with h' | h'
      · rw [BidSorter.findMinFrom, h']
        exact hposlen
      · rw [BidSorter.findMinFrom]
        omega
    have hswap : (if BidSorter.findMinFrom l n (pos + 1) pos ≠ pos
          then swapIdx l pos (BidSorter.findMinFrom l n (pos + 1) pos) else l)
        = swapIdx l pos (BidSorter.findMinFrom l n (pos + 1) pos) := by
      split
      · rfl
      · rename_i h
        push_neg at h
        rw [h, swapIdx_self l pos]
    simp only [Original.selOuterF, BidSorter.selLoopF, hscan,
      if_pos (And.intro hposlen hmlt), hswap]
    exact ih (pos + 1) (swapIdx l pos (BidSorter.findMinFrom l n (pos + 1) pos))
      (by rw [length_swapIdx]; exact hlen) (by omega)

/-- On a nonempty vector the original `selectionSort` never faults and
returns exactly the enhanced `selectionSort`'s output. -/
theorem orig_selectionSort_eq {l : List Bid} (hl : l ≠ []) :
    Original.selectionSort l = some (BidSorter.selectionSort l) := by
  have hlen : 1 ≤ l.length := by
    rcases l with _ | ⟨x, xs⟩
    · exact absurd rfl hl
    · simp
  have h0 : ¬ l.length = 0 := by omega
  rw [Original.selectionSort, if_neg h0, BidSorter.selectionSort, if_neg hl,
    BidSorter.selLoop]
  have : l.length - 1 - 0 = l.length - 1 := by omega
  rw [this]
  exact orig_selOuter_eq l.length (l.length - 1) 0 l rfl (by omega)

/-- The original `partition` also succeeds on any in-bounds range and touches
only indices inside `[b, e]`: its scan stoppers are supplied by the pivot at
the midpoint, exactly as in the enhanced variant. -/
theorem orig_partition_trace {l : List Bid} {b e : Nat} (hbe : b ≤ e) (he : e < l.length) :
    ∃ h l' t, Original.partition l b e = some (h, l', t) ∧ ∀ i ∈ t, b ≤ i ∧ i ≤ e := by
  have hmidlen : b + (e - b) / 2 < l.length := by omega
  have hread : l[b + (e - b) / 2]? = some l[b + (e - b) / 2] :=
    List.getElem?_eq_getElem hmidlen
  have hnth : nth l (b + (e - b) / 2) = l[b + (e - b) / 2] := nth_eq_getElem hmidlen
  obtain ⟨h, l', t, hpl, _, _, _, _, _, _, _, _, htr⟩ :=
    BidSorter.partitionLoop_spec (l[b + (e - b) / 2]).title b e (e + 2) l b e
      (b + (e - b) / 2) (b + (e - b) / 2)
      he le_rfl hbe le_rfl (by omega)
      (fun q h₁ h₂ => by omega)
      (fun q h₁ h₂ => by omega)
      (by omega) (by omega) (by rw [hnth]; exact strLe_refl _)
      (by omega) (by omega) (by rw [hnth]; exact strLe_refl _)
  have hplO : Original.partitionLoop (l[b + (e - b) / 2]).title (e + 2) l b e
      = some (h, l', t) := by
    rw [orig_partitionLoop_eq (l[b + (e - b) / 2]).title b e (e + 2) l b e
      (b + (e - b) / 2) (b + (e - b) / 2)
      he le_rfl hbe le_rfl (by omega)
      (by omega) (by omega) (by rw [hnth]; exact strLe_refl _)
      (by omega) (by omega) (by rw [hnth]; exact strLe_refl _)]
    exact hpl
  refine ⟨h, l', (b + (e - b) / 2) :: t, ?_, ?_⟩
  · simp only [Original.partition, hread, hplO]
    rfl
  · intro i hi
    rcases List.mem_cons.mp hi with h' | h'
    · subst h'
      omega
    · exact htr i h'

/-! ### Claim theorems -/

/-- C1: for every input sequence and each of the four sort operations as the
program runs them, the output is ascending by title: for all indices `i < j`
within the output, `output[i].title <= output[j].title`. -/
theorem C1_all_sorts_ascending_by_title (a : SortAlg) (l : List Bid) (i j : Nat)
    (hij : i < j) (hj : j < (runAlg a l).length) :
    strLe (nth (runAlg a l) i).title (nth (runAlg a l) j).title :=
  sortedByTitle_iff_nth.mp (runAlg_spec a l).2.2 i j hij hj

theorem C1_all_sorts_ascending_by_title_witness :
    0 < 1 ∧ 1 < (runAlg .quick [bidZebra, bidApple, bidMango]).length
      ∧ strLe (nth (runAlg .quick [bidZebra, bidApple, bidMango]) 0).title
          (nth (runAlg .quick [bidZebra, bidApple, bidMango]) 1).title :=
  ⟨by decide, by decide,
    C1_all_sorts_ascending_by_title .quick [bidZebra, bidApple, bidMango] 0 1
      (by decide) (by decide)⟩

/-- C2: for every input sequence and each of the four sort operations, the
output is a permutation of the input multiset of records — no record is
added, dropped, or mutated in any field, only repositioned. -/
theorem C2_output_permutation_of_input (a : SortAlg) (l : List Bid) :
    (runAlg a l).Perm l :=
  (runAlg_spec a l).2.1

/-- C3: in every call of the quicksort partition step with a valid range
`0 ≤ begin ≤ end < length`, in both the enhanced and the original variant,
every index at which the sequence is read or swapped lies within
`[begin, end]` — the recorded access trace never steps outside the range. -/
theorem C3_partition_accesses_within_range {l : List Bid} {b e : Nat}
    (hbe : b ≤ e) (he : e < l.length) :
    (∃ h l' t, BidSorter.partition l b e = some (h, l', t) ∧ ∀ i ∈ t, b ≤ i ∧ i ≤ e)
      ∧ (∃ h l' t, Original.partition l b e = some (h, l', t) ∧ ∀ i ∈ t, b ≤ i ∧ i ≤ e) := by
  constructor
  · obtain ⟨h, l', t, hp, _, _, _, _, _, _, _, _, htr⟩ := BidSorter.partition_spec hbe he
    exact ⟨h, l', t, hp, htr⟩
  · exact orig_partition_trace hbe he

theorem C3_partition_accesses_within_range_witness :
    (0 : Nat) ≤ 2 ∧ 2 < [bidZebra, bidApple, bidMango].length
      ∧ ((∃ h l' t, BidSorter.partition [bidZebra, bidApple, bidMango] 0 2 = some (h, l', t)
            ∧ ∀ i ∈ t, 0 ≤ i ∧ i ≤ 2)
        ∧ (∃ h l' t, Original.partition [bidZebra, bidApple, bidMango] 0 2 = some (h, l', t)
            ∧ ∀ i ∈ t, 0 ≤ i ∧ i ≤ 2)) :=
  ⟨by decide, by decide, C3_partition_accesses_within_range (by decide) (by decide)⟩

/-- C4: mergeSort over the full range is stable — for every title, the
subsequence of records carrying that title is exactly the input's, in the
input's order, so two equal-titled records keep their original relative
order. -/
theorem C4_mergeSort_stable (l : List Bid) (t : String) :
    (runAlg .merge l).filter (fun z => decide (z.title = t))
      = l.filter (fun z => decide (z.title = t)) :=
  (BidSorter.mergeSort_runAlg_spec l).2.2.2 t

/-- C5 (counterexample): quickSort as run by the program transposes the two
equal-titled records of the already-sorted input `[bidA1, bidA2]`, so
sorting a sorted sequence is not always the identity and the claimed
unconditional idempotence fails. -/
theorem C5_quickSort_reorders_sorted_equal_titles :
    sortedByTitle [bidA1, bidA2]
      ∧ runAlg .quick [bidA1, bidA2] = [bidA2, bidA1]
      ∧ runAlg .quick [bidA1, bidA2] ≠ [bidA1, bidA2] := by decide

/-- C5 (amended): selectionSort and mergeSort leave already-sorted inputs
unchanged and are idempotent unconditionally; all four operations are
idempotent and leave sorted inputs unchanged whenever the titles are pairwise
distinct (quickSort and heapSort may transpose equal-titled records). -/
theorem C5_amended_idempotence (a : SortAlg) (l : List Bid) :
    ((a = .selection ∨ a = .merge) →
      runAlg a (runAlg a l) = runAlg a l ∧ (sortedByTitle l → runAlg a l = l))
    ∧ (List.Pairwise (fun x y => x.title ≠ y.title) l →
      runAlg a (runAlg a l) = runAlg a l ∧ (sortedByTitle l → runAlg a l = l)) := by
  constructor
  · intro hst
    refine ⟨runAlg_idem_stable hst l, ?_⟩
    intro hs
    rcases hst with h | h <;> subst h
    · exact BidSorter.selectionSort_of_sorted hs
    · exact BidSorter.mergeSort_runAlg_id hs
  · intro hd
    exact ⟨runAlg_idem_of_distinct a hd,
      fun hs => runAlg_id_of_sorted_of_distinct a hs hd⟩

theorem C5_amended_idempotence_witness :
    List.Pairwise (fun x y => x.title ≠ y.title) [bidMango, bidApple]
      ∧ runAlg .quick (runAlg .quick [bidMango, bidApple])
        = runAlg .quick [bidMango, bidApple] :=
  ⟨by decide, ((C5_amended_idempotence .quick [bidMango, bidApple]).2 (by decide)).1⟩

/-- C6 (counterexample): the complexity column is computed by matching the
result's display string, not the algorithm's identity — a heap-sort result
whose name string differs from `"Heap Sort"` is rendered with an empty
complexity class instead of the identity mapping's `"O(n log n)"`. -/
theorem C6_complexity_keyed_by_display_string :
    displayedComplexity (benchmarkSort (runAlg .heap) 1 [bidA1] "HeapSort") = ""
      ∧ algComplexity .heap = "O(n log n)"
      ∧ displayedComplexity (benchmarkSort (runAlg .heap) 1 [bidA1] "HeapSort")
        ≠ algComplexity .heap := by decide

/-- C6 (amended): the complexity column is looked up by matching the result's
display name against the four fixed strings (empty for any other name); on
the rows actually produced by `runBenchmarkComparison` this string lookup
coincides, position by position, with the closed identity-keyed mapping
{Selection→O(n²), Quick→O(n log n), Merge→O(n log n), Heap→O(n log n)}. -/
theorem C6_amended_complexity_column (u1 u2 u3 u4 : ℚ) {l : List Bid} (hl : l ≠ []) :
    (runBenchmarkComparison u1 u2 u3 u4 l).map displayedComplexity
      = [algComplexity .selection, algComplexity .quick,
         algComplexity .merge, algComplexity .heap] := by
  have hname : ∀ (f : List Bid → List Bid) (t : ℚ) (nm : String),
      (benchmarkSort f t l nm).algorithmName = nm := by
    intro f t nm
    by_cases h : l = []
    · simp [benchmarkSort, h]
    · simp [benchmarkSort, h]
  simp only [runBenchmarkComparison, if_neg hl, List.map_cons, List.map_nil,
    displayedComplexity, hname]
  rfl

theorem C6_amended_complexity_column_witness :
    [bidA1] ≠ ([] : List Bid)
      ∧ (runBenchmarkComparison 0 0 0 0 [bidA1]).map displayedComplexity
        = [algComplexity .selection, algComplexity .quick,
           algComplexity .merge, algComplexity .heap] :=
  ⟨by decide, C6_amended_complexity_column 0 0 0 0 (by decide)⟩

/-- C7: benchmarking never mutates the caller's data — after any number of
`benchmarkSort` calls and any number of four-algorithm sweeps, the caller's
sequence is element-for-element its pre-call state, because each call sorts a
by-value copy. -/
theorem C7_benchmark_preserves_callers_sequence (calls : List (SortAlg × ℚ × String))
    (sweeps : List (ℚ × ℚ × ℚ × ℚ)) (l : List Bid) :
    benchmarkSession calls l = l ∧ sweepSession sweeps l = l := by
  constructor
  · induction calls with
    | nil => rfl
    | cons c cs ih => exact ih
  · induction sweeps with
    | nil => rfl
    | cons u us ih => exact ih

/-- C8: degenerate inputs are no-ops — sequences of length 0 or 1 are returned
unchanged by all four operations, and a ranged quickSort or mergeSort call
with `begin ≥ end` (out-of-order ranges included) returns its sequence
unmodified without faulting. -/
theorem C8_degenerate_inputs_noops (a : SortAlg) (l l' : List Bid) (b e : Nat)
    (hl : l.length ≤ 1) (hbe : e ≤ b) :
    runAlg a l = l
      ∧ BidSorter.quickSort (l'.length + 1) l' b e = some l'
      ∧ BidSorter.mergeSort l' b e = l' :=
  ⟨runAlg_short a hl,
   BidSorter.quickSort_degenerate (by omega) (Or.inl hbe),
   BidSorter.mergeSort_degenerate (Or.inl hbe)⟩

theorem C8_degenerate_inputs_noops_witness :
    ([bidA1] : List Bid).length ≤ 1 ∧ (1 : Nat) ≤ 3
      ∧ (runAlg .heap [bidA1] = [bidA1]
        ∧ BidSorter.quickSort ([bidZebra, bidApple].length + 1) [bidZebra, bidApple] 3 1
            = some [bidZebra, bidApple]
        ∧ BidSorter.mergeSort [bidZebra, bidApple] 3 1 = [bidZebra, bidApple]) :=
  ⟨by decide, by decide,
    C8_degenerate_inputs_noops .heap [bidA1] [bidZebra, bidApple] 3 1
      (by decide) (by decide)⟩

/-- C9 (counterexample): a singleton input does not yield a zero-size,
zero-time result — `benchmarkSort` only short-circuits on the empty input, so
a length-1 dataset reports size 1 and the measured (possibly nonzero)
duration. -/
theorem C9_singleton_benchmark_not_zero :
    (benchmarkSort (runAlg .selection) 5 [bidA1] "Selection Sort").dataSize = 1
      ∧ (benchmarkSort (runAlg .selection) 5 [bidA1] "Selection Sort").executionTimeMs = 5
      ∧ (benchmarkSort (runAlg .selection) 5 [bidA1] "Selection Sort")
        ≠ ⟨"Selection Sort", 0, 0⟩ := by decide

/-- C9 (amended): only the empty input short-circuits to the zero-size,
zero-time result, doing so for every algorithm and every measured duration
alike (the algorithm is never invoked); a singleton input runs the selected
algorithm on its copy and reports size 1 with the measured duration. -/
theorem C9_amended_empty_short_circuit (f g : List Bid → List Bid) (t u : ℚ)
    (nm : String) (a : SortAlg) (x : Bid) :
    benchmarkSort f t [] nm = ⟨nm, 0, 0⟩
      ∧ benchmarkSort g u [] nm = benchmarkSort f t [] nm
      ∧ benchmarkSort (runAlg a) t [x] nm = ⟨nm, 1, t⟩ := by
  refine ⟨rfl, rfl, ?_⟩
  have h1 : runAlg a [x] = [x] := runAlg_short a (by simp)
  simp [benchmarkSort, h1]

/-- C10: on valid inputs the two engine variants agree — for every non-empty
sequence the original `selectionSort` runs without fault and produces the
enhanced variant's exact output, and for every in-bounds range (with enough
fuel for the shared recursion structure) the original `quickSort` equals the
enhanced `quickSort`. -/
theorem C10_original_enhanced_equivalent (l : List Bid) (fuel b e : Nat)
    (hl : l ≠ []) (he : e < l.length) (hf : e - b < fuel) :
    Original.selectionSort l = some (BidSorter.selectionSort l)
      ∧ Original.quickSort fuel l b e = BidSorter.quickSort fuel l b e :=
  ⟨orig_selectionSort_eq hl, orig_quickSort_eq fuel l b e he hf⟩

theorem C10_original_enhanced_equivalent_witness :
    [bidZebra, bidApple, bidMango] ≠ ([] : List Bid)
      ∧ 2 < [bidZebra, bidApple, bidMango].length ∧ 2 - 0 < 4
      ∧ (Original.selectionSort [bidZebra, bidApple, bidMango]
          = some (BidSorter.selectionSort [bidZebra, bidApple, bidMango])
        ∧ Original.quickSort 4 [bidZebra, bidApple, bidMango] 0 2
          = BidSorter.quickSort 4 [bidZebra, bidApple, bidMango] 0 2) :=
  ⟨by decide, by decide, by decide,
    C10_original_enhanced_equivalent [bidZebra, bidApple, bidMango] 4 0 2
      (by decide) (by decide) (by decide)⟩
